import Mathlib

/-
Verification of the Minesweeper AI knowledge-base engine from
minesweeper.py: the Sentence constraint type, the knowledge-base
propagation primitives, the add_knowledge ingestion path, the
update_knowledge fixpoint loop, and move selection.

Python sets of board coordinates are embedded as Finset over pairs of
naturals; sentence counts are embedded as integers (Python ints may go
negative through mark_mine).  Python's Sentence.__eq__ compares the cell
set and the count, which coincides with structural equality of the
Sentence structure below.  The unbounded while loop of update_knowledge
is embedded with explicit fuel (run), returning none if the fuel is
exhausted before a pass reports no change.
-/

abbrev Cell : Type := Nat × Nat

/-- Python class Sentence: a set of cells with the number of mines
asserted to lie among them. -/
structure Sentence where
  cells : Finset Cell
  count : ℤ
deriving DecidableEq

/-- Sentence.known_mines: if len(cells) == count then cells else the
empty set. -/
def Sentence.known_mines (s : Sentence) : Finset Cell :=
  if (s.cells.card : ℤ) = s.count then s.cells else ∅

/-- Sentence.known_safes: if count == 0 then cells else the empty set. -/
def Sentence.known_safes (s : Sentence) : Finset Cell :=
  if s.count = 0 then s.cells else ∅

/-- Sentence.mark_mine: if the cell is present, remove it and decrement
the count. -/
def Sentence.mark_mine (s : Sentence) (c : Cell) : Sentence :=
  if c ∈ s.cells then ⟨s.cells.erase c, s.count - 1⟩ else s

/-- Sentence.mark_safe: if the cell is present, remove it; the count is
unchanged. -/
def Sentence.mark_safe (s : Sentence) (c : Cell) : Sentence :=
  if c ∈ s.cells then ⟨s.cells.erase c, s.count⟩ else s

/-- The state of class MinesweeperAI: board dimensions, the moves made,
the proven mines and safes, and the knowledge list of sentences. -/
structure AI where
  height : Nat
  width : Nat
  moves_made : Finset Cell
  mines : Finset Cell
  safes : Finset Cell
  knowledge : List Sentence
deriving DecidableEq

/-- MinesweeperAI.__init__ (the knowledge-base fields). -/
def AI.init (h w : Nat) : AI :=
  ⟨h, w, ∅, ∅, ∅, []⟩

/-- MinesweeperAI.mark_mine: add the cell to mines and push the mark
through every sentence. -/
def AI.mark_mine (st : AI) (c : Cell) : AI :=
  { st with mines := insert c st.mines,
            knowledge := st.knowledge.map (fun s => s.mark_mine c) }

/-- MinesweeperAI.mark_safe: add the cell to safes and push the mark
through every sentence. -/
def AI.mark_safe (st : AI) (c : Cell) : AI :=
  { st with safes := insert c st.safes,
            knowledge := st.knowledge.map (fun s => s.mark_safe c) }

/-- The in-bounds 8-neighborhood of a cell: the Python double loop over
i in [row-1, row+1], j in [col-1, col+1], skipping the cell itself and
anything outside the board. -/
def nbrs (h w : Nat) (c : Cell) : Finset Cell :=
  (Finset.range h ×ˢ Finset.range w).filter
    (fun p => p ≠ c ∧ (c.1 : ℤ) - 1 ≤ (p.1 : ℤ) ∧ (p.1 : ℤ) ≤ (c.1 : ℤ) + 1 ∧
              (c.2 : ℤ) - 1 ≤ (p.2 : ℤ) ∧ (p.2 : ℤ) ≤ (c.2 : ℤ) + 1)

/-- The candidate produced by subset subtraction of sentence s2 from
sentence s1: Sentence(s1.cells - s2.cells, s1.count - s2.count). -/
def subCand (s1 s2 : Sentence) : Sentence :=
  ⟨s1.cells \ s2.cells, s1.count - s2.count⟩

/-- The guard of the subset-subtraction phase:
sentence1 != sentence2 and sentence2.cells.issubset(sentence1.cells)
and sentence2.cells (nonempty). -/
def subGuard (s1 s2 : Sentence) : Prop :=
  s1 ≠ s2 ∧ s2.cells ⊆ s1.cells ∧ s2.cells ≠ ∅

instance (s1 s2 : Sentence) : Decidable (subGuard s1 s2) := by
  unfold subGuard; exact inferInstance

/-- The inner loop (for sentence2 in self.knowledge) of the
subset-subtraction phase, accumulating new_sentences: a candidate is
appended only if its count is nonnegative and it is not already in the
knowledge list kl nor in the accumulator. -/
def subInner (kl : List Sentence) (s1 : Sentence) :
    List Sentence → List Sentence → List Sentence
  | [], acc => acc
  | s2 :: rest, acc =>
    subInner kl s1 rest
      (if subGuard s1 s2 then
        (if 0 ≤ (subCand s1 s2).count ∧ subCand s1 s2 ∉ kl ∧ subCand s1 s2 ∉ acc
         then acc ++ [subCand s1 s2] else acc)
       else acc)

/-- The outer loop (for sentence1 in self.knowledge) of the
subset-subtraction phase. -/
def subOuter (kl : List Sentence) : List Sentence → List Sentence → List Sentence
  | [], acc => acc
  | s1 :: rest, acc => subOuter kl rest (subInner kl s1 kl acc)

/-- The new_sentences list built by one subset-subtraction phase over
the knowledge list kl. -/
def subtractPass (kl : List Sentence) : List Sentence :=
  subOuter kl kl []

/-- The union of known_mines() over the knowledge list (the new_mines
set collected by a pass of update_knowledge). -/
def newMinesOf (kl : List Sentence) : Finset Cell :=
  kl.foldr (fun s acc => s.known_mines ∪ acc) ∅

/-- The union of known_safes() over the knowledge list (the new_safes
set). -/
def newSafesOf (kl : List Sentence) : Finset Cell :=
  kl.foldr (fun s acc => s.known_safes ∪ acc) ∅

/-- The combined effect on one sentence of calling Sentence.mark_mine
for every cell of NM and then Sentence.mark_safe for every cell of NS.
Python iterates over the sets in arbitrary order; erasing distinct cells
commutes and each mark decrements at most once, so the result is the
simultaneous set difference, with the count reduced by the number of
cells the mine marks actually removed. -/
def markAll (nm ns : Finset Cell) (s : Sentence) : Sentence :=
  ⟨(s.cells \ nm) \ ns, s.count - ((s.cells ∩ nm).card : ℤ)⟩

/-- One pass of the update_knowledge while loop: collect known mines and
safes, mark the genuinely new ones (each mark is the AI-level mark_mine
or mark_safe, i.e. it touches every sentence), prune sentences with
empty cell sets, run subset subtraction, and append the new sentences.
The Bool is the Python changed flag: true iff some mark was made or some
sentence was appended. -/
def step (st : AI) : AI × Bool :=
  let nm := newMinesOf st.knowledge \ st.mines
  let ns := newSafesOf st.knowledge \ st.safes
  let marked := st.knowledge.map (markAll nm ns)
  let pruned := marked.filter (fun s => s.cells ≠ ∅)
  let fresh := subtractPass pruned
  ({ st with mines := st.mines ∪ nm, safes := st.safes ∪ ns,
             knowledge := pruned ++ fresh },
   decide (nm ≠ ∅ ∨ ns ≠ ∅ ∨ fresh ≠ []))

/-- The set of newly discovered mines of one pass (new mines minus the
ones already marked). -/
def stepNM (st : AI) : Finset Cell :=
  newMinesOf st.knowledge \ st.mines

/-- The set of newly discovered safes of one pass. -/
def stepNS (st : AI) : Finset Cell :=
  newSafesOf st.knowledge \ st.safes

/-- The knowledge list of one pass after marking and pruning. -/
def stepPruned (st : AI) : List Sentence :=
  (st.knowledge.map (markAll (stepNM st) (stepNS st))).filter (fun s => s.cells ≠ ∅)

/-- The new sentences derived by the subset subtraction of one pass. -/
def stepFresh (st : AI) : List Sentence :=
  subtractPass (stepPruned st)

/-- The update_knowledge while loop with explicit fuel: repeat step
until a pass reports changed = false; none if the fuel runs out first. -/
def run : Nat → AI → Option AI
  | 0, _ => none
  | n + 1, st =>
    let p := step st
    if p.2 then run n p.1 else some p.1

/-- update_knowledge terminates on state st: some amount of fuel
suffices for the while loop to exit. -/
def UpdateTerminates (st : AI) : Prop :=
  ∃ n st', run n st = some st'

/-- The part of add_knowledge before the call to update_knowledge:
record the move, mark the cell safe, partition the in-bounds neighbors
into already-known mines (counted) and unknown cells, and append
Sentence(neighbors, count - already_known_mines) when the unknown set is
nonempty. -/
def AI.ingest (st : AI) (cell : Cell) (count : ℤ) : AI :=
  let stm : AI := { st with moves_made := insert cell st.moves_made }
  let sts : AI := stm.mark_safe cell
  let nb := nbrs st.height st.width cell
  let neighbors := nb.filter (fun p => p ∉ sts.mines ∧ p ∉ sts.safes)
  let akm : ℤ := ((nb.filter (fun p => p ∈ sts.mines)).card : ℤ)
  if neighbors ≠ ∅ then
    { sts with knowledge := sts.knowledge ++ [⟨neighbors, count - akm⟩] }
  else sts

/-- The unknown neighbors collected by add_knowledge: in-bounds
neighbors that are neither known mines nor known safes (the cell itself
has just been marked safe). -/
def ingestNbrsUnknown (st : AI) (cell : Cell) : Finset Cell :=
  (nbrs st.height st.width cell).filter
    (fun p => p ∉ st.mines ∧ p ∉ insert cell st.safes)

/-- The already_known_mines counter of add_knowledge: in-bounds
neighbors that are known mines. -/
def ingestKnownMines (st : AI) (cell : Cell) : ℤ :=
  (((nbrs st.height st.width cell).filter (fun p => p ∈ st.mines)).card : ℤ)

/-- MinesweeperAI.add_knowledge: ingest the clue, then run the
update_knowledge loop (with fuel standing in for the unbounded while). -/
def AI.add_knowledge (st : AI) (cell : Cell) (count : ℤ) (fuel : Nat) : Option AI :=
  run fuel (st.ingest cell count)

/-- itertools.product(range(height), range(width)) as a list. -/
def allCellsList (st : AI) : List Cell :=
  (List.range st.height).flatMap (fun i => (List.range st.width).map (fun j => (i, j)))

/-- all_cells - self.moves_made - self.mines, the pool make_random_move
draws from. -/
def AI.possible_moves (st : AI) : List Cell :=
  (allCellsList st).filter (fun c => c ∉ st.moves_made ∧ c ∉ st.mines)

/-- MinesweeperAI.make_random_move: none if the pool is empty, otherwise
an element of the pool.  random.choice's uniform pick is abstracted by
the index argument, reduced modulo the pool size. -/
def AI.make_random_move (st : AI) (choice : Nat) : Option Cell :=
  let pm := st.possible_moves
  if pm = [] then none else some (pm.getD (choice % pm.length) (0, 0))

/-- A sentence is consistent with a true mine placement M when its count
equals the number of its cells that really are mines. -/
def SentenceOK (m : Finset Cell) (s : Sentence) : Prop :=
  s.count = ((s.cells ∩ m).card : ℤ)

instance (m : Finset Cell) (s : Sentence) : Decidable (SentenceOK m s) := by
  unfold SentenceOK; exact inferInstance

/-- A knowledge-base state is consistent with a true mine placement M:
every marked mine really is a mine, every marked safe really is not, and
every sentence count equals the number of true mines among its cells. -/
def Consistent (m : Finset Cell) (st : AI) : Prop :=
  st.mines ⊆ m ∧ (∀ c ∈ st.safes, c ∉ m) ∧ ∀ s ∈ st.knowledge, SentenceOK m s

instance (m : Finset Cell) (st : AI) : Decidable (Consistent m st) := by
  unfold Consistent; exact inferInstance

/-- No sentence mentions a cell that is already marked as mine or safe
(the code removes a cell from every sentence the moment it is proven). -/
def Tidy (st : AI) : Prop :=
  ∀ s ∈ st.knowledge, ∀ c ∈ s.cells, c ∉ st.mines ∧ c ∉ st.safes

/-- All cells mentioned by the knowledge list. -/
def universeOf (kl : List Sentence) : Finset Cell :=
  kl.foldr (fun s acc => s.cells ∪ acc) ∅

/-- All sentences with a nonempty cell set drawn from u and a count
between 0 and the size of the cell set: the finite space in which the
subset-subtraction phase generates candidates on consistent states. -/
def candSet (u : Finset Cell) : Finset Sentence :=
  (u.powerset.filter (fun t => t ≠ ∅)).biUnion
    (fun t => (Finset.Icc (0 : ℤ) (t.card : ℤ)).image (fun n => ⟨t, n⟩))

/-- Unmarked cells still mentioned by the knowledge list. -/
def comp1 (st : AI) : Nat :=
  (universeOf st.knowledge \ (st.mines ∪ st.safes)).card

/-- Candidate sentences not yet present in the knowledge list. -/
def comp2 (st : AI) : Nat :=
  ((candSet (universeOf st.knowledge)).filter (fun s => s ∉ st.knowledge)).card

/-- Termination measure for the update_knowledge loop on consistent
states: a changed pass either marks a new cell (comp1 drops) or only
appends fresh candidate sentences (comp2 drops, comp1 unchanged). -/
def loopMeasure (st : AI) : Nat :=
  comp1 st * ((candSet (universeOf st.knowledge)).card + 1) + comp2 st

/-- Knowledge-base states reachable from a fresh AI by add_knowledge
calls whose clues agree with a fixed true mine placement M: the revealed
cell is not a mine and the clue count is the true number of mines in its
in-bounds neighborhood.  The fuel witnesses that the update loop of that
call terminated. -/
inductive ReachM (m : Finset Cell) : AI → Prop where
  | start (h w : Nat) : ReachM m (AI.init h w)
  | move (st st' : AI) (cell : Cell) (count : ℤ) (fuel : Nat) :
      ReachM m st → cell ∉ m →
      count = (((nbrs st.height st.width cell) ∩ m).card : ℤ) →
      st.add_knowledge cell count fuel = some st' → ReachM m st'

/-- A knowledge-base state on which the update_knowledge loop diverges:
two constraints over the same three cells with different counts.  Subset
subtraction derives the empty-cell sentence with count 1, which the next
pass prunes and then derives again, forever. -/
def badKB : AI :=
  ⟨2, 2, ∅, ∅, ∅, [⟨{(0,0), (0,1), (1,0)}, 2⟩, ⟨{(0,0), (0,1), (1,0)}, 1⟩]⟩

/-- The state reached after one pass of the loop on badKB; every further
pass maps it to itself with the changed flag still true. -/
def badKB1 : AI :=
  ⟨2, 2, ∅, ∅, ∅, [⟨{(0,0), (0,1), (1,0)}, 2⟩, ⟨{(0,0), (0,1), (1,0)}, 1⟩, ⟨∅, 1⟩]⟩

/-- The sentence produced by revealing cell (1,1) with clue 1 on an
empty 2 x 2 knowledge base. -/
def exS : Sentence := ⟨{(0,0), (0,1), (1,0)}, 1⟩

/-- The state after add_knowledge((1,1), 1) on a fresh 2 x 2 AI. -/
def stA : AI := ⟨2, 2, {(1,1)}, ∅, {(1,1)}, [exS]⟩

/-- The state after feeding the same clue (1,1), 1 a second time: the
sentence is appended again, giving two equal constraints. -/
def stB : AI := ⟨2, 2, {(1,1)}, ∅, {(1,1)}, [exS, exS]⟩

/-- Sanity: marking all of a singleton mine set agrees with
Sentence.mark_mine, in both the present and the absent case. -/
theorem markAll_singleton_mine (s : Sentence) (c : Cell) :
    markAll {c} ∅ s = s.mark_mine c := by
  unfold markAll Sentence.mark_mine
  by_cases h : c ∈ s.cells
  · rw [if_pos h]
    have h1 : s.cells \ {c} = s.cells.erase c := by
      rw [Finset.sdiff_singleton_eq_erase]
    have h2 : s.cells ∩ {c} = {c} := by
      rw [Finset.inter_comm]
      exact Finset.singleton_inter_of_mem h
    simp [h1, h2]
  · rw [if_neg h]
    have h1 : s.cells \ {c} = s.cells := by
      rw [Finset.sdiff_singleton_eq_erase, Finset.erase_eq_of_not_mem h]
    have h2 : s.cells ∩ {c} = ∅ := by
      rw [Finset.inter_comm]
      exact Finset.singleton_inter_of_not_mem h
    simp [h1, h2]

/-- Sanity: marking all of a singleton safe set agrees with
Sentence.mark_safe. -/
theorem markAll_singleton_safe (s : Sentence) (c : Cell) :
    markAll ∅ {c} s = s.mark_safe c := by
  unfold markAll Sentence.mark_safe
  by_cases h : c ∈ s.cells
  · rw [if_pos h]
    simp [Finset.sdiff_singleton_eq_erase]
  · rw [if_neg h]
    simp [Finset.sdiff_singleton_eq_erase, Finset.erase_eq_of_not_mem h]

/-- Everything in the accumulator survives the inner subtraction loop. -/
theorem subInner_acc_subset (kl : List Sentence) (s1 : Sentence) :
    ∀ (l acc : List Sentence) (x : Sentence), x ∈ acc → x ∈ subInner kl s1 l acc := by
  intro l
  induction l with
  | nil => intro acc x hx; exact hx
  | cons s2 rest ih =>
    intro acc x hx
    unfold subInner
    apply ih
    split
    · split
      · exact List.mem_append_left _ hx
      · exact hx
    · exact hx

/-- Everything the inner subtraction loop adds is a guarded, nonnegative
candidate built from the fixed outer sentence and a sentence of the
traversed list, and it is not already in the knowledge list. -/
theorem subInner_mem (kl : List Sentence) (s1 : Sentence) :
    ∀ (l acc : List Sentence) (x : Sentence), x ∈ subInner kl s1 l acc →
      x ∈ acc ∨ ∃ s2 ∈ l, subGuard s1 s2 ∧ 0 ≤ (subCand s1 s2).count ∧
        subCand s1 s2 ∉ kl ∧ x = subCand s1 s2 := by
  intro l
  induction l with
  | nil => intro acc x hx; exact Or.inl hx
  | cons s2 rest ih =>
    intro acc x hx
    unfold subInner at hx
    rcases ih _ x hx with hacc | ⟨s2', hs2', hrest⟩
    · by_cases hg : subGuard s1 s2
      · rw [if_pos hg] at hacc
        by_cases hcond : 0 ≤ (subCand s1 s2).count ∧ subCand s1 s2 ∉ kl ∧ subCand s1 s2 ∉ acc
        · rw [if_pos hcond] at hacc
          rcases List.mem_append.mp hacc with h | h
          · exact Or.inl h
          · rcases List.mem_singleton.mp h with rfl
            exact Or.inr ⟨s2, List.mem_cons_self s2 rest, hg, hcond.1, hcond.2.1, rfl⟩
        · rw [if_neg hcond] at hacc
          exact Or.inl hacc
      · rw [if_neg hg] at hacc
        exact Or.inl hacc
    · exact Or.inr ⟨s2', List.mem_cons_of_mem _ hs2', hrest⟩

/-- The inner subtraction loop keeps the accumulator duplicate-free: a
candidate is appended only when it is not already there. -/
theorem subInner_nodup (kl : List Sentence) (s1 : Sentence) :
    ∀ (l acc : List Sentence), acc.Nodup → (subInner kl s1 l acc).Nodup := by
  intro l
  induction l with
  | nil => intro acc h; exact h
  | cons s2 rest ih =>
    intro acc h
    unfold subInner
    apply ih
    split
    · split
      · rename_i hcond
        simp only [List.nodup_append, List.nodup_cons, List.nodup_nil]
        exact ⟨h, ⟨List.not_mem_nil _, trivial⟩, by
          intro a ha hamem
          rcases List.mem_singleton.mp hamem with rfl
          exact hcond.2.2 ha⟩
      · exact h
    · exact h

/-- Accumulator preservation for the outer subtraction loop. -/
theorem subOuter_acc_subset (kl : List Sentence) :
    ∀ (l acc : List Sentence) (x : Sentence), x ∈ acc → x ∈ subOuter kl l acc := by
  intro l
  induction l with
  | nil => intro acc x hx; exact hx
  | cons s1 rest ih =>
    intro acc x hx
    exact ih _ x (subInner_acc_subset kl s1 kl acc x hx)

/-- Membership description for the outer subtraction loop. -/
theorem subOuter_mem (kl : List Sentence) :
    ∀ (l acc : List Sentence) (x : Sentence), x ∈ subOuter kl l acc →
      x ∈ acc ∨ ∃ s1 ∈ l, ∃ s2 ∈ kl, subGuard s1 s2 ∧ 0 ≤ (subCand s1 s2).count ∧
        subCand s1 s2 ∉ kl ∧ x = subCand s1 s2 := by
  intro l
  induction l with
  | nil => intro acc x hx; exact Or.inl hx
  | cons s1 rest ih =>
    intro acc x hx
    rcases ih _ x hx with hacc | ⟨s1', hs1', hrest⟩
    · rcases subInner_mem kl s1 kl acc x hacc with h | ⟨s2, hs2, hg, hpos, hnew, hx'⟩
      · exact Or.inl h
      · exact Or.inr ⟨s1, List.mem_cons_self s1 rest, s2, hs2, hg, hpos, hnew, hx'⟩
    · exact Or.inr ⟨s1', List.mem_cons_of_mem _ hs1', hrest⟩

/-- Nodup preservation for the outer subtraction loop. -/
theorem subOuter_nodup (kl : List Sentence) :
    ∀ (l acc : List Sentence), acc.Nodup → (subOuter kl l acc).Nodup := by
  intro l
  induction l with
  | nil => intro acc h; exact h
  | cons s1 rest ih =>
    intro acc h
    exact ih _ (subInner_nodup kl s1 kl acc h)

/-- Every sentence generated by a subset-subtraction pass is a
nonnegative candidate derived from a guarded pair of sentences of the
knowledge list, and is not already in that list. -/
theorem subtractPass_mem (kl : List Sentence) (x : Sentence)
    (hx : x ∈ subtractPass kl) :
    ∃ s1 ∈ kl, ∃ s2 ∈ kl, subGuard s1 s2 ∧ 0 ≤ (subCand s1 s2).count ∧
      subCand s1 s2 ∉ kl ∧ x = subCand s1 s2 := by
  rcases subOuter_mem kl kl [] x hx with h | h
  · exact absurd h (List.not_mem_nil x)
  · exact h

/-- A subset-subtraction pass never generates duplicates. -/
theorem subtractPass_nodup (kl : List Sentence) : (subtractPass kl).Nodup :=
  subOuter_nodup kl kl [] List.nodup_nil

set_option maxRecDepth 10000

/-- Claim C2 as stated is false in the degenerate case of an empty cell
set: Sentence(set(), 5) returns its (empty) full cell set from both
known_mines() and known_safes(), yet its count is neither the number of
its cells nor zero, so neither "if and only if" holds. -/
theorem C2_counterexample :
    (¬ (Sentence.known_mines ⟨∅, 5⟩ = (Sentence.mk ∅ 5).cells ↔
        (Sentence.mk ∅ 5).count = ((Sentence.mk ∅ 5).cells.card : ℤ))) ∧
    (¬ (Sentence.known_safes ⟨∅, 5⟩ = (Sentence.mk ∅ 5).cells ↔
        (Sentence.mk ∅ 5).count = 0)) := by
  decide

/-- Claim C2, amended: known_mines() returns the cell set when count
equals the number of cells and the empty set otherwise, and known_safes()
returns the cell set when count is zero and the empty set otherwise; for
sentences with a nonempty cell set this is an equivalence (returns the
full cell set iff the respective condition holds), while for the empty
cell set the two possible return values coincide and the equivalence
degenerates. -/
theorem C2_known_sets (s : Sentence) :
    ((s.count = (s.cells.card : ℤ) → s.known_mines = s.cells) ∧
     (s.count ≠ (s.cells.card : ℤ) → s.known_mines = ∅) ∧
     (s.cells.Nonempty → (s.known_mines = s.cells ↔ s.count = (s.cells.card : ℤ)))) ∧
    ((s.count = 0 → s.known_safes = s.cells) ∧
     (s.count ≠ 0 → s.known_safes = ∅) ∧
     (s.cells.Nonempty → (s.known_safes = s.cells ↔ s.count = 0))) := by
  constructor
  · refine ⟨?_, ?_, ?_⟩
    · intro h; unfold Sentence.known_mines; rw [if_pos h.symm]
    · intro h; unfold Sentence.known_mines; rw [if_neg (fun hc => h hc.symm)]
    · intro hne
      constructor
      · intro heq
        by_contra h
        have h2 : s.known_mines = ∅ := by
          unfold Sentence.known_mines; rw [if_neg (fun hc => h hc.symm)]
        rw [h2] at heq
        exact hne.ne_empty heq.symm
      · intro h; unfold Sentence.known_mines; rw [if_pos h.symm]
  · refine ⟨?_, ?_, ?_⟩
    · intro h; unfold Sentence.known_safes; rw [if_pos h]
    · intro h; unfold Sentence.known_safes; rw [if_neg h]
    · intro hne
      constructor
      · intro heq
        by_contra h
        have h2 : s.known_safes = ∅ := by
          unfold Sentence.known_safes; rw [if_neg h]
        rw [h2] at heq
        exact hne.ne_empty heq.symm
      · intro h; unfold Sentence.known_safes; rw [if_pos h]

/-- Witness for C2_known_sets at Sentence({(0,0)}, 1). -/
theorem C2_witness :
    Sentence.known_mines ⟨{(0,0)}, 1⟩ = (Sentence.mk {(0,0)} 1).cells :=
  (C2_known_sets ⟨{(0,0)}, 1⟩).1.1 (by decide)

/-- Claim C3: every sentence stored by the subset-subtraction phase has
a nonnegative count; candidates with negative count are discarded before
insertion. -/
theorem C3_subtraction_nonneg (kl : List Sentence) (x : Sentence)
    (h : x ∈ subtractPass kl) : 0 ≤ x.count := by
  obtain ⟨s1, -, s2, -, -, hpos, -, hx⟩ := subtractPass_mem kl x h
  rw [hx]; exact hpos

/-- Witness for C3_subtraction_nonneg on a knowledge list whose
subtraction pass produces the sentence {(0,1)} = 0. -/
theorem C3_witness : (0:ℤ) ≤ (Sentence.mk {(0,1)} 0).count :=
  C3_subtraction_nonneg [⟨{(0,0),(0,1)}, 1⟩, ⟨{(0,0)}, 1⟩] ⟨{(0,1)}, 0⟩ (by decide)

/-- Claim C5 as stated is false: a knowledge-base state holding two
equal constraints is reachable with clues that are consistent with the
true mine placement {(0,0)} on a 2 x 2 board.  Feeding the clue
((1,1), 1) twice appends the very same sentence twice, because
add_knowledge never deduplicates the sentence it appends. -/
theorem C5_counterexample :
    ((AI.init 2 2).add_knowledge (1,1) 1 5 = some stA ∧
     stA.add_knowledge (1,1) 1 5 = some stB ∧
     ReachM {(0,0)} stB) ∧ ¬ stB.knowledge.Nodup := by
  refine ⟨⟨by decide, by decide, ?_⟩, by decide⟩
  exact ReachM.move stA stB (1,1) 1 5
    (ReachM.move (AI.init 2 2) stA (1,1) 1 5 (ReachM.start 2 2)
      (by decide) (by decide) (by decide))
    (by decide) (by decide) (by decide)

/-- Claim C5, amended: the subset-subtraction phase of the fixpoint loop
is duplicate-free — it never stores a sentence equal to one already in
the knowledge list, and the sentences it generates in one pass are
pairwise distinct — but add_knowledge itself appends its new sentence
without any equality check, so a reachable knowledge base can hold two
equal constraints. -/
theorem C5_subtraction_dedup (kl : List Sentence) (x : Sentence)
    (h : x ∈ subtractPass kl) : x ∉ kl ∧ (subtractPass kl).Nodup := by
  obtain ⟨s1, -, s2, -, -, -, hnew, hx⟩ := subtractPass_mem kl x h
  exact ⟨hx ▸ hnew, subtractPass_nodup kl⟩

/-- Witness for C5_subtraction_dedup. -/
theorem C5_witness :
    (Sentence.mk {(0,1)} 0) ∉ [Sentence.mk {(0,0),(0,1)} 1, Sentence.mk {(0,0)} 1] ∧
    (subtractPass [Sentence.mk {(0,0),(0,1)} 1, Sentence.mk {(0,0)} 1]).Nodup :=
  C5_subtraction_dedup [⟨{(0,0),(0,1)}, 1⟩, ⟨{(0,0)}, 1⟩] ⟨{(0,1)}, 0⟩ (by decide)

/-- Claim C6 as stated is false: on a fresh 2 x 2 knowledge base,
feeding the clue ((1,1), 1) twice does not produce the same final state
as feeding it once — the second call appends a duplicate of the same
sentence, so the knowledge lists differ. -/
theorem C6_counterexample :
    (AI.init 2 2).add_knowledge (1,1) 1 5 = some stA ∧
    stA.add_knowledge (1,1) 1 5 = some stB ∧ stB ≠ stA := by
  decide

/-- Claim C8: marking a present cell as a mine removes it and decrements
the count by exactly one; a second identical mark is a no-op, and
marking an absent cell is a no-op. -/
theorem C8_mark_mine_correct (s : Sentence) (c : Cell) :
    (c ∈ s.cells →
      c ∉ (s.mark_mine c).cells ∧ (s.mark_mine c).count = s.count - 1) ∧
    (s.mark_mine c).mark_mine c = s.mark_mine c ∧
    (c ∉ s.cells → s.mark_mine c = s) := by
  by_cases h : c ∈ s.cells
  · have h1 : s.mark_mine c = ⟨s.cells.erase c, s.count - 1⟩ := by
      unfold Sentence.mark_mine; rw [if_pos h]
    refine ⟨fun _ => ?_, ?_, fun hn => absurd h hn⟩
    · rw [h1]; exact ⟨Finset.not_mem_erase c s.cells, rfl⟩
    · conv_lhs => rw [h1]
      unfold Sentence.mark_mine
      rw [if_neg (Finset.not_mem_erase c s.cells), if_pos h]
  · have h1 : s.mark_mine c = s := by
      unfold Sentence.mark_mine; rw [if_neg h]
    exact ⟨fun hc => absurd hc h, by rw [h1, h1], fun _ => h1⟩

/-- Witness for C8_mark_mine_correct at Sentence({(0,0)}, 1), cell (0,0). -/
theorem C8_witness :
    (0,0) ∉ (Sentence.mark_mine ⟨{(0,0)}, 1⟩ (0,0)).cells ∧
    (Sentence.mark_mine ⟨{(0,0)}, 1⟩ (0,0)).count = (1:ℤ) - 1 :=
  (C8_mark_mine_correct ⟨{(0,0)}, 1⟩ (0,0)).1 (by decide)

/-- Claim C9: make_random_move returns an element of
all_cells - moves_made - mines whenever that pool is nonempty (whatever
the random index), and none when the pool is empty; in particular it
never returns a made move or a known mine. -/
theorem C9_random_move (st : AI) (k : Nat) :
    (st.possible_moves = [] → st.make_random_move k = none) ∧
    (st.possible_moves ≠ [] → ∃ c, st.make_random_move k = some c ∧
      c ∈ st.possible_moves ∧ c ∉ st.moves_made ∧ c ∉ st.mines) := by
  constructor
  · intro h
    unfold AI.make_random_move
    rw [if_pos h]
  · intro h
    have hlen : 0 < st.possible_moves.length := List.length_pos.mpr h
    have hidx : k % st.possible_moves.length < st.possible_moves.length :=
      Nat.mod_lt _ hlen
    have hmem : st.possible_moves.getD (k % st.possible_moves.length) (0,0)
        ∈ st.possible_moves := by
      rw [List.getD_eq_getElem st.possible_moves (0,0) hidx]
      exact List.getElem_mem hidx
    have hres : st.make_random_move k =
        some (st.possible_moves.getD (k % st.possible_moves.length) (0,0)) := by
      unfold AI.make_random_move
      rw [if_neg h]
    refine ⟨_, hres, hmem, ?_, ?_⟩
    · have h2 := hmem
      unfold AI.possible_moves at h2
      simp only [List.mem_filter, decide_eq_true_eq] at h2
      exact h2.2.1
    · have h2 := hmem
      unfold AI.possible_moves at h2
      simp only [List.mem_filter, decide_eq_true_eq] at h2
      exact h2.2.2

/-- Witness for C9_random_move on a fresh 2 x 2 board. -/
theorem C9_witness :
    ∃ c, (AI.init 2 2).make_random_move 0 = some c ∧
      c ∈ (AI.init 2 2).possible_moves ∧
      c ∉ (AI.init 2 2).moves_made ∧ c ∉ (AI.init 2 2).mines :=
  (C9_random_move (AI.init 2 2) 0).2 (by decide)

/-- Claim C10: the knowledge-base-level mark_mine only adds the cell to
mines (moves_made and safes untouched), and mark_safe only adds the cell
to safes (moves_made and mines untouched). -/
theorem C10_mark_frame (st : AI) (c : Cell) :
    (st.mark_mine c).moves_made = st.moves_made ∧
    (st.mark_mine c).safes = st.safes ∧
    (st.mark_mine c).mines = insert c st.mines ∧
    (st.mark_safe c).moves_made = st.moves_made ∧
    (st.mark_safe c).mines = st.mines ∧
    (st.mark_safe c).safes = insert c st.safes :=
  ⟨rfl, rfl, rfl, rfl, rfl, rfl⟩

/-- step, written through its four named components. -/
theorem step_eq (st : AI) :
    step st = ({ st with mines := st.mines ∪ stepNM st,
                         safes := st.safes ∪ stepNS st,
                         knowledge := stepPruned st ++ stepFresh st },
               decide (stepNM st ≠ ∅ ∨ stepNS st ≠ ∅ ∨ stepFresh st ≠ [])) := rfl

theorem mem_newMinesOf (kl : List Sentence) (c : Cell) :
    c ∈ newMinesOf kl ↔ ∃ s ∈ kl, c ∈ s.known_mines := by
  induction kl with
  | nil => simp [newMinesOf]
  | cons s rest ih =>
    simp only [newMinesOf, List.foldr_cons, Finset.mem_union, List.mem_cons]
    rw [newMinesOf] at ih
    rw [ih]
    constructor
    · rintro (h | ⟨t, ht, hc⟩)
      · exact ⟨s, Or.inl rfl, h⟩
      · exact ⟨t, Or.inr ht, hc⟩
    · rintro ⟨t, (rfl | ht), hc⟩
      · exact Or.inl hc
      · exact Or.inr ⟨t, ht, hc⟩

theorem mem_newSafesOf (kl : List Sentence) (c : Cell) :
    c ∈ newSafesOf kl ↔ ∃ s ∈ kl, c ∈ s.known_safes := by
  induction kl with
  | nil => simp [newSafesOf]
  | cons s rest ih =>
    simp only [newSafesOf, List.foldr_cons, Finset.mem_union, List.mem_cons]
    rw [newSafesOf] at ih
    rw [ih]
    constructor
    · rintro (h | ⟨t, ht, hc⟩)
      · exact ⟨s, Or.inl rfl, h⟩
      · exact ⟨t, Or.inr ht, hc⟩
    · rintro ⟨t, (rfl | ht), hc⟩
      · exact Or.inl hc
      · exact Or.inr ⟨t, ht, hc⟩

theorem mem_universeOf (kl : List Sentence) (c : Cell) :
    c ∈ universeOf kl ↔ ∃ s ∈ kl, c ∈ s.cells := by
  induction kl with
  | nil => simp [universeOf]
  | cons s rest ih =>
    simp only [universeOf, List.foldr_cons, Finset.mem_union, List.mem_cons]
    rw [universeOf] at ih
    rw [ih]
    constructor
    · rintro (h | ⟨t, ht, hc⟩)
      · exact ⟨s, Or.inl rfl, h⟩
      · exact ⟨t, Or.inr ht, hc⟩
    · rintro ⟨t, (rfl | ht), hc⟩
      · exact Or.inl hc
      · exact Or.inr ⟨t, ht, hc⟩

theorem mem_candSet (u : Finset Cell) (x : Sentence) :
    x ∈ candSet u ↔
      x.cells ⊆ u ∧ x.cells ≠ ∅ ∧ 0 ≤ x.count ∧ x.count ≤ (x.cells.card : ℤ) := by
  unfold candSet
  simp only [Finset.mem_biUnion, Finset.mem_filter, Finset.mem_powerset,
    Finset.mem_image, Finset.mem_Icc]
  constructor
  · rintro ⟨t, ⟨hsub, hne⟩, n, ⟨hn0, hnc⟩, rfl⟩
    exact ⟨hsub, hne, hn0, hnc⟩
  · rintro ⟨hsub, hne, h0, hc⟩
    exact ⟨x.cells, ⟨hsub, hne⟩, x.count, ⟨h0, hc⟩, rfl⟩

/-- On a consistent sentence, every cell reported by known_mines really
is a mine of the placement. -/
theorem known_mines_sound (m : Finset Cell) (s : Sentence) (hs : SentenceOK m s)
    (c : Cell) (hc : c ∈ s.known_mines) : c ∈ m := by
  unfold Sentence.known_mines at hc
  by_cases h : (s.cells.card : ℤ) = s.count
  · rw [if_pos h] at hc
    unfold SentenceOK at hs
    have hcard : (s.cells ∩ m).card = s.cells.card := by
      have := h.trans hs
      exact_mod_cast this.symm
    have hsub : s.cells ⊆ s.cells ∩ m :=
      Finset.subset_inter_iff.mpr ⟨Finset.Subset.refl _, by
        have : s.cells ∩ m = s.cells :=
          Finset.eq_of_subset_of_card_le Finset.inter_subset_left (le_of_eq hcard.symm)
        intro a ha
        have : a ∈ s.cells ∩ m := this.symm ▸ ha
        exact Finset.mem_inter.mp this |>.2⟩
    have : c ∈ s.cells ∩ m := Finset.subset_inter_iff.mp hsub |>.2 hc |> fun h2 => Finset.mem_inter.mpr ⟨hc, h2⟩
    exact Finset.mem_inter.mp this |>.2
  · rw [if_neg h] at hc
    exact absurd hc (Finset.not_mem_empty c)

/-- On a consistent sentence, every cell reported by known_safes really
is not a mine of the placement. -/
theorem known_safes_sound (m : Finset Cell) (s : Sentence) (hs : SentenceOK m s)
    (c : Cell) (hc : c ∈ s.known_safes) : c ∉ m := by
  unfold Sentence.known_safes at hc
  by_cases h : s.count = 0
  · rw [if_pos h] at hc
    unfold SentenceOK at hs
    have hcard : (s.cells ∩ m).card = 0 := by
      have := h ▸ hs
      exact_mod_cast this.symm
    have hempty : s.cells ∩ m = ∅ := Finset.card_eq_zero.mp hcard
    intro hcm
    have : c ∈ s.cells ∩ m := Finset.mem_inter.mpr ⟨hc, hcm⟩
    rw [hempty] at this
    exact Finset.not_mem_empty c this
  · rw [if_neg h] at hc
    exact absurd hc (Finset.not_mem_empty c)

/-- On a consistent state, every newly discovered mine of a pass is a
true mine. -/
theorem stepNM_subset_m (m : Finset Cell) (st : AI) (hC : Consistent m st) :
    stepNM st ⊆ m := by
  intro c hc
  rcases Finset.mem_sdiff.mp hc with ⟨hmem, -⟩
  rcases (mem_newMinesOf _ c).mp hmem with ⟨s, hs, hcs⟩
  exact known_mines_sound m s (hC.2.2 s hs) c hcs

/-- On a consistent state, every newly discovered safe of a pass is a
true non-mine. -/
theorem stepNS_not_m (m : Finset Cell) (st : AI) (hC : Consistent m st) :
    ∀ c ∈ stepNS st, c ∉ m := by
  intro c hc
  rcases Finset.mem_sdiff.mp hc with ⟨hmem, -⟩
  rcases (mem_newSafesOf _ c).mp hmem with ⟨s, hs, hcs⟩
  exact known_safes_sound m s (hC.2.2 s hs) c hcs

/-- Marking true mines and true non-mines preserves the consistency of a
sentence. -/
theorem markAll_ok (m nm nsf : Finset Cell) (s : Sentence)
    (hs : SentenceOK m s) (hnm : nm ⊆ m) (hns : ∀ c ∈ nsf, c ∉ m) :
    SentenceOK m (markAll nm nsf s) := by
  unfold SentenceOK at hs ⊢
  unfold markAll
  simp only
  have h1 : ((s.cells \ nm) \ nsf) ∩ m = (s.cells ∩ m) \ (s.cells ∩ nm) := by
    ext c
    simp only [Finset.mem_inter, Finset.mem_sdiff]
    constructor
    · rintro ⟨⟨⟨hc, hnm'⟩, hns'⟩, hm⟩
      exact ⟨⟨hc, hm⟩, fun h => hnm' h.2⟩
    · rintro ⟨⟨hc, hm⟩, hn⟩
      exact ⟨⟨⟨hc, fun h => hn ⟨hc, h⟩⟩, fun h => hns c h hm⟩, hm⟩
  have h2 : s.cells ∩ nm ⊆ s.cells ∩ m := by
    intro c hc
    rcases Finset.mem_inter.mp hc with ⟨h3, h4⟩
    exact Finset.mem_inter.mpr ⟨h3, hnm h4⟩
  rw [h1, Finset.card_sdiff h2, Nat.cast_sub (Finset.card_le_card h2), hs]

/-- Subset subtraction of consistent sentences yields a consistent
sentence. -/
theorem subCand_ok (m : Finset Cell) (s1 s2 : Sentence)
    (h1 : SentenceOK m s1) (h2 : SentenceOK m s2)
    (hsub : s2.cells ⊆ s1.cells) : SentenceOK m (subCand s1 s2) := by
  unfold SentenceOK at h1 h2 ⊢
  unfold subCand
  simp only
  have hA : (s1.cells \ s2.cells) ∩ m = (s1.cells ∩ m) \ (s2.cells ∩ m) := by
    ext c
    simp only [Finset.mem_sdiff, Finset.mem_inter]
    constructor
    · rintro ⟨⟨hc1, hc2⟩, hm⟩
      exact ⟨⟨hc1, hm⟩, fun h => hc2 h.1⟩
    · rintro ⟨⟨hc1, hm⟩, hn⟩
      exact ⟨⟨hc1, fun h => hn ⟨h, hm⟩⟩, hm⟩
  have hsub2 : s2.cells ∩ m ⊆ s1.cells ∩ m := by
    intro c hc
    rcases Finset.mem_inter.mp hc with ⟨h3, h4⟩
    exact Finset.mem_inter.mpr ⟨hsub h3, h4⟩
  rw [hA, Finset.card_sdiff hsub2, Nat.cast_sub (Finset.card_le_card hsub2), h1, h2]

/-- On consistent sentences, a guarded subtraction pair has strictly
nested cell sets, so the candidate's cell set is nonempty. -/
theorem subCand_ne_empty (m : Finset Cell) (s1 s2 : Sentence)
    (h1 : SentenceOK m s1) (h2 : SentenceOK m s2)
    (hg : subGuard s1 s2) : (subCand s1 s2).cells ≠ ∅ := by
  intro h
  have hsub : s1.cells ⊆ s2.cells := Finset.sdiff_eq_empty_iff_subset.mp h
  have heq : s1.cells = s2.cells := Finset.Subset.antisymm hsub hg.2.1
  have hcount : s1.count = s2.count := by
    unfold SentenceOK at h1 h2
    rw [h1, h2, heq]
  apply hg.1
  obtain ⟨c1, n1⟩ := s1
  obtain ⟨c2, n2⟩ := s2
  simp only at heq hcount
  rw [heq, hcount]

/-- On a consistent state, every sentence surviving the marking and
pruning of a pass is consistent. -/
theorem stepPruned_ok (m : Finset Cell) (st : AI) (hC : Consistent m st) :
    ∀ s ∈ stepPruned st, SentenceOK m s := by
  intro s hs
  rcases List.mem_filter.mp hs with ⟨h1, -⟩
  rcases List.mem_map.mp h1 with ⟨t, ht, rfl⟩
  exact markAll_ok m _ _ t (hC.2.2 t ht) (stepNM_subset_m m st hC) (stepNS_not_m m st hC)

/-- Cells of a marked-and-pruned sentence come from a sentence of the
original list and avoid the newly marked cells. -/
theorem stepPruned_cells (st : AI) (s : Sentence) (hs : s ∈ stepPruned st)
    (c : Cell) (hc : c ∈ s.cells) :
    (∃ t ∈ st.knowledge, c ∈ t.cells) ∧ c ∉ stepNM st ∧ c ∉ stepNS st := by
  rcases List.mem_filter.mp hs with ⟨h1, -⟩
  rcases List.mem_map.mp h1 with ⟨t, ht, rfl⟩
  unfold markAll at hc
  simp only [Finset.mem_sdiff] at hc
  exact ⟨⟨t, ht, hc.1.1⟩, hc.1.2, hc.2⟩

/-- One pass preserves consistency with the mine placement. -/
theorem consistent_step (m : Finset Cell) (st : AI) (hC : Consistent m st) :
    Consistent m (step st).1 := by
  rw [step_eq]
  refine ⟨?_, ?_, ?_⟩
  · intro c hc
    rcases Finset.mem_union.mp hc with h | h
    · exact hC.1 h
    · exact stepNM_subset_m m st hC h
  · intro c hc
    rcases Finset.mem_union.mp hc with h | h
    · exact hC.2.1 c h
    · exact stepNS_not_m m st hC c h
  · intro s hsk
    rcases List.mem_append.mp hsk with h | h
    · exact stepPruned_ok m st hC s h
    · obtain ⟨s1, hs1, s2, hs2, hg, -, -, rfl⟩ := subtractPass_mem _ s h
      exact subCand_ok m s1 s2 (stepPruned_ok m st hC s1 hs1)
        (stepPruned_ok m st hC s2 hs2) hg.2.1

/-- One pass preserves tidiness: no sentence mentions a marked cell. -/
theorem tidy_step (st : AI) (hT : Tidy st) : Tidy (step st).1 := by
  rw [step_eq]
  intro s hsk c hc
  have key : ∀ s' ∈ stepPruned st, ∀ c' ∈ Sentence.cells s',
      c' ∉ st.mines ∪ stepNM st ∧ c' ∉ st.safes ∪ stepNS st := by
    intro s' hs' c' hc'
    obtain ⟨⟨t, ht, htc⟩, hnm, hns⟩ := stepPruned_cells st s' hs' c' hc'
    obtain ⟨hm, hsafe⟩ := hT t ht c' htc
    constructor
    · intro h
      rcases Finset.mem_union.mp h with h | h
      · exact hm h
      · exact hnm h
    · intro h
      rcases Finset.mem_union.mp h with h | h
      · exact hsafe h
      · exact hns h
  rcases List.mem_append.mp hsk with h | h
  · exact key s h c hc
  · obtain ⟨s1, hs1, s2, hs2, hg, -, -, rfl⟩ := subtractPass_mem _ s h
    unfold subCand at hc
    simp only [Finset.mem_sdiff] at hc
    exact key s1 hs1 c hc.1

/-- The cells mentioned after a pass were already mentioned before it. -/
theorem universeOf_step_subset (st : AI) :
    universeOf (stepPruned st ++ stepFresh st) ⊆ universeOf st.knowledge := by
  intro c hc
  rw [mem_universeOf] at hc ⊢
  obtain ⟨s, hs, hcs⟩ := hc
  rcases List.mem_append.mp hs with h | h
  · exact (stepPruned_cells st s h c hcs).1
  · obtain ⟨s1, hs1, s2, hs2, hg, -, -, rfl⟩ := subtractPass_mem _ s h
    unfold subCand at hcs
    simp only [Finset.mem_sdiff] at hcs
    exact (stepPruned_cells st s1 hs1 c hcs.1).1

theorem step_mines (st : AI) : (step st).1.mines = st.mines ∪ stepNM st := rfl

theorem step_safes (st : AI) : (step st).1.safes = st.safes ∪ stepNS st := rfl

theorem step_moves (st : AI) : (step st).1.moves_made = st.moves_made := rfl

theorem step_height (st : AI) : (step st).1.height = st.height := rfl

theorem step_width (st : AI) : (step st).1.width = st.width := rfl

theorem step_knowledge (st : AI) :
    (step st).1.knowledge = stepPruned st ++ stepFresh st := rfl

theorem step_changed_iff (st : AI) :
    (step st).2 = true ↔ (stepNM st ≠ ∅ ∨ stepNS st ≠ ∅ ∨ stepFresh st ≠ []) := by
  rw [step_eq]
  simp

theorem known_mines_subset (s : Sentence) : s.known_mines ⊆ s.cells := by
  unfold Sentence.known_mines
  split
  · exact Finset.Subset.refl _
  · exact Finset.empty_subset _

theorem known_safes_subset (s : Sentence) : s.known_safes ⊆ s.cells := by
  unfold Sentence.known_safes
  split
  · exact Finset.Subset.refl _
  · exact Finset.empty_subset _

theorem candSet_mono {u v : Finset Cell} (h : u ⊆ v) : candSet u ⊆ candSet v := by
  intro x hx
  rw [mem_candSet] at hx ⊢
  exact ⟨hx.1.trans h, hx.2⟩

theorem SentenceOK_bounds (m : Finset Cell) (s : Sentence) (h : SentenceOK m s) :
    0 ≤ s.count ∧ s.count ≤ (s.cells.card : ℤ) := by
  unfold SentenceOK at h
  constructor
  · rw [h]; exact Int.natCast_nonneg _
  · rw [h]; exact_mod_cast Finset.card_le_card Finset.inter_subset_left

theorem markAll_empty (s : Sentence) : markAll ∅ ∅ s = s := by
  unfold markAll
  simp

theorem stepPruned_of_no_marks (st : AI) (h1 : stepNM st = ∅) (h2 : stepNS st = ∅) :
    stepPruned st = st.knowledge.filter (fun s => s.cells ≠ ∅) := by
  unfold stepPruned
  rw [h1, h2]
  have he : markAll (∅ : Finset Cell) ∅ = id := funext markAll_empty
  rw [he, List.map_id]

theorem universeOf_step_of_no_marks (st : AI)
    (h1 : stepNM st = ∅) (h2 : stepNS st = ∅) :
    universeOf (step st).1.knowledge = universeOf st.knowledge := by
  apply Finset.Subset.antisymm
  · rw [step_knowledge]
    exact universeOf_step_subset st
  · intro c hc
    rw [mem_universeOf] at hc
    obtain ⟨s, hs, hcs⟩ := hc
    rw [step_knowledge, mem_universeOf]
    refine ⟨s, List.mem_append_left _ ?_, hcs⟩
    rw [stepPruned_of_no_marks st h1 h2]
    exact List.mem_filter.mpr ⟨hs, by simpa using Finset.ne_empty_of_mem hcs⟩

/-- On a consistent state, a changed pass strictly decreases the loop
measure: either a new cell got marked, or the pass only appended fresh
candidate sentences. -/
theorem step_measure_lt (m : Finset Cell) (st : AI) (hC : Consistent m st)
    (hch : (step st).2 = true) : loopMeasure (step st).1 < loopMeasure st := by
  have hch' : stepNM st ≠ ∅ ∨ stepNS st ≠ ∅ ∨ stepFresh st ≠ [] :=
    (step_changed_iff st).mp hch
  by_cases hmark : stepNM st = ∅ ∧ stepNS st = ∅
  · obtain ⟨hNM, hNS⟩ := hmark
    have hfresh : stepFresh st ≠ [] := by
      rcases hch' with h | h | h
      · exact absurd hNM h
      · exact absurd hNS h
      · exact h
    have hU : universeOf (step st).1.knowledge = universeOf st.knowledge :=
      universeOf_step_of_no_marks st hNM hNS
    have hmines : (step st).1.mines = st.mines := by
      rw [step_mines, hNM, Finset.union_empty]
    have hsafes : (step st).1.safes = st.safes := by
      rw [step_safes, hNS, Finset.union_empty]
    have e1 : comp1 (step st).1 = comp1 st := by
      unfold comp1
      rw [hU, hmines, hsafes]
    have e2 : candSet (universeOf (step st).1.knowledge) =
        candSet (universeOf st.knowledge) := by rw [hU]
    have hprun : stepPruned st = st.knowledge.filter (fun s => s.cells ≠ ∅) :=
      stepPruned_of_no_marks st hNM hNS
    have e3 : comp2 (step st).1 < comp2 st := by
      unfold comp2
      rw [hU]
      apply Finset.card_lt_card
      rw [Finset.ssubset_def]
      obtain ⟨ns0, hns0⟩ := List.exists_mem_of_ne_nil _ hfresh
      obtain ⟨s1, hs1, s2, hs2, hg, hpos, hnotin, hcand0⟩ :=
        subtractPass_mem _ ns0 hns0
      subst hcand0
      have hs1kl : s1 ∈ st.knowledge := by
        rw [hprun] at hs1
        exact (List.mem_filter.mp hs1).1
      have hs2kl : s2 ∈ st.knowledge := by
        rw [hprun] at hs2
        exact (List.mem_filter.mp hs2).1
      have ok1 : SentenceOK m s1 := hC.2.2 s1 hs1kl
      have ok2 : SentenceOK m s2 := hC.2.2 s2 hs2kl
      have okc : SentenceOK m (subCand s1 s2) := subCand_ok m s1 s2 ok1 ok2 hg.2.1
      have hne : (subCand s1 s2).cells ≠ ∅ := subCand_ne_empty m s1 s2 ok1 ok2 hg
      have hcand : subCand s1 s2 ∈ candSet (universeOf st.knowledge) := by
        rw [mem_candSet]
        refine ⟨?_, hne, (SentenceOK_bounds m _ okc).1, (SentenceOK_bounds m _ okc).2⟩
        intro c hc
        have hc1 : c ∈ s1.cells := by
          unfold subCand at hc
          exact (Finset.mem_sdiff.mp hc).1
        exact (mem_universeOf _ c).mpr ⟨s1, hs1kl, hc1⟩
      have hnotkl : subCand s1 s2 ∉ st.knowledge := by
        intro hin
        apply hnotin
        rw [hprun]
        exact List.mem_filter.mpr ⟨hin, by simpa using hne⟩
      constructor
      · intro x hx
        rcases Finset.mem_filter.mp hx with ⟨hxc, hxnot⟩
        refine Finset.mem_filter.mpr ⟨hxc, ?_⟩
        intro hxkl
        apply hxnot
        rw [step_knowledge]
        apply List.mem_append_left
        rw [hprun]
        refine List.mem_filter.mpr ⟨hxkl, ?_⟩
        have hxne : x.cells ≠ ∅ := ((mem_candSet _ x).mp hxc).2.1
        simpa using hxne
      · intro habs
        have h1 : subCand s1 s2 ∈
            Finset.filter (fun s => s ∉ st.knowledge) (candSet (universeOf st.knowledge)) :=
          Finset.mem_filter.mpr ⟨hcand, hnotkl⟩
        have h2 := habs h1
        rcases Finset.mem_filter.mp h2 with ⟨-, hnot⟩
        apply hnot
        rw [step_knowledge]
        exact List.mem_append_right _ hns0
    unfold loopMeasure
    rw [e1, e2]
    exact Nat.add_lt_add_left e3 _
  · have hne : (stepNM st ∪ stepNS st).Nonempty := by
      have h0 : stepNM st ≠ ∅ ∨ stepNS st ≠ ∅ := by tauto
      rcases h0 with h | h
      · obtain ⟨c, hc⟩ := Finset.nonempty_iff_ne_empty.mpr h
        exact ⟨c, Finset.mem_union_left _ hc⟩
      · obtain ⟨c, hc⟩ := Finset.nonempty_iff_ne_empty.mpr h
        exact ⟨c, Finset.mem_union_right _ hc⟩
    have hsubU : universeOf (step st).1.knowledge ⊆ universeOf st.knowledge := by
      rw [step_knowledge]
      exact universeOf_step_subset st
    have hNMU : stepNM st ∪ stepNS st ⊆
        universeOf st.knowledge \ (st.mines ∪ st.safes) := by
      intro c hc
      rw [Finset.mem_sdiff]
      rcases Finset.mem_union.mp hc with h | h
      · rcases Finset.mem_sdiff.mp h with ⟨hmem, hnm⟩
        have hcm : c ∈ m := stepNM_subset_m m st hC h
        refine ⟨?_, ?_⟩
        · rcases (mem_newMinesOf _ c).mp hmem with ⟨s, hs, hcs⟩
          exact (mem_universeOf _ c).mpr ⟨s, hs, known_mines_subset s hcs⟩
        · intro hc2
          rcases Finset.mem_union.mp hc2 with h2 | h2
          · exact hnm h2
          · exact hC.2.1 c h2 hcm
      · rcases Finset.mem_sdiff.mp h with ⟨hmem, hns⟩
        have hcm : c ∉ m := stepNS_not_m m st hC c h
        refine ⟨?_, ?_⟩
        · rcases (mem_newSafesOf _ c).mp hmem with ⟨s, hs, hcs⟩
          exact (mem_universeOf _ c).mpr ⟨s, hs, known_safes_subset s hcs⟩
        · intro hc2
          rcases Finset.mem_union.mp hc2 with h2 | h2
          · exact hcm (hC.1 h2)
          · exact hns h2
    have hT'sub : universeOf (step st).1.knowledge \
        ((step st).1.mines ∪ (step st).1.safes) ⊆
        (universeOf st.knowledge \ (st.mines ∪ st.safes)) \ (stepNM st ∪ stepNS st) := by
      intro c hc
      rcases Finset.mem_sdiff.mp hc with ⟨hU', hnot⟩
      rw [step_mines, step_safes] at hnot
      rw [Finset.mem_sdiff, Finset.mem_sdiff]
      refine ⟨⟨hsubU hU', ?_⟩, ?_⟩
      · intro h
        apply hnot
        rcases Finset.mem_union.mp h with h | h
        · exact Finset.mem_union_left _ (Finset.mem_union_left _ h)
        · exact Finset.mem_union_right _ (Finset.mem_union_left _ h)
      · intro h
        apply hnot
        rcases Finset.mem_union.mp h with h | h
        · exact Finset.mem_union_left _ (Finset.mem_union_right _ h)
        · exact Finset.mem_union_right _ (Finset.mem_union_right _ h)
    have hc1 : comp1 (step st).1 < comp1 st := by
      unfold comp1
      apply Finset.card_lt_card
      rw [Finset.ssubset_def]
      obtain ⟨c0, hc0⟩ := hne
      constructor
      · intro x hx
        exact (Finset.mem_sdiff.mp (hT'sub hx)).1
      · intro habs
        have h1 : c0 ∈ universeOf st.knowledge \ (st.mines ∪ st.safes) := hNMU hc0
        have h2 := habs h1
        have h3 := hT'sub h2
        exact (Finset.mem_sdiff.mp h3).2 hc0
    have hCle : (candSet (universeOf (step st).1.knowledge)).card ≤
        (candSet (universeOf st.knowledge)).card :=
      Finset.card_le_card (candSet_mono hsubU)
    have hcomp2 : comp2 (step st).1 ≤ (candSet (universeOf (step st).1.knowledge)).card := by
      unfold comp2
      exact Finset.card_filter_le _ _
    unfold loopMeasure
    calc comp1 (step st).1 * ((candSet (universeOf (step st).1.knowledge)).card + 1) +
          comp2 (step st).1
        ≤ comp1 (step st).1 * ((candSet (universeOf st.knowledge)).card + 1) +
          (candSet (universeOf st.knowledge)).card := by
          exact Nat.add_le_add (Nat.mul_le_mul le_rfl (by omega)) (le_trans hcomp2 hCle)
      _ < (comp1 (step st).1 + 1) * ((candSet (universeOf st.knowledge)).card + 1) := by
          have hx : (comp1 (step st).1 + 1) * ((candSet (universeOf st.knowledge)).card + 1) =
              comp1 (step st).1 * ((candSet (universeOf st.knowledge)).card + 1) +
              (candSet (universeOf st.knowledge)).card + 1 := by ring
          omega
      _ ≤ comp1 st * ((candSet (universeOf st.knowledge)).card + 1) :=
          Nat.mul_le_mul (Nat.succ_le_of_lt hc1) le_rfl
      _ ≤ comp1 st * ((candSet (universeOf st.knowledge)).card + 1) + comp2 st :=
          Nat.le_add_right _ _

/-- With enough fuel (one unit above the measure), the loop exits on any
consistent state. -/
theorem run_terminates (m : Finset Cell) :
    ∀ (k : Nat) (st : AI), Consistent m st → loopMeasure st < k →
      ∃ st', run k st = some st' := by
  intro k
  induction k with
  | zero => intro st _ h; omega
  | succ n ih =>
    intro st hC hlt
    have hrun : run (n + 1) st =
        if (step st).2 then run n (step st).1 else some (step st).1 := rfl
    cases hb : (step st).2 with
    | true =>
      have h1 := step_measure_lt m st hC hb
      have h2 := consistent_step m st hC
      obtain ⟨st', hst'⟩ := ih (step st).1 h2 (by omega)
      refine ⟨st', ?_⟩
      rw [hrun, hb, if_pos rfl]
      exact hst'
    | false =>
      refine ⟨(step st).1, ?_⟩
      rw [hrun, hb]
      simp

/-- Claim C1, amended: on every knowledge-base state that is consistent
with some true mine placement (constraint counts equal the true number
of mines among their cells, marked mines are true mines, marked safes
are true non-mines), the update_knowledge fixpoint loop terminates; the
number of passes is bounded by the finite measure built from the cell
universe and the finite space of candidate constraints.  Without the
consistency restriction the loop can run forever (see the
counterexample). -/
theorem C1_terminates_of_consistent (m : Finset Cell) (st : AI)
    (hC : Consistent m st) : UpdateTerminates st :=
  ⟨loopMeasure st + 1, run_terminates m (loopMeasure st + 1) st hC (by omega)⟩

/-- Witness for C1_terminates_of_consistent at a concrete consistent
state. -/
theorem C1_witness : UpdateTerminates (AI.init 1 1) :=
  C1_terminates_of_consistent ∅ (AI.init 1 1) (by decide)

/-- Each pass of the loop maps badKB1 to itself with the changed flag
still true: the empty-cell sentence with count 1 is pruned and then
immediately re-derived by subset subtraction. -/
theorem step_badKB1 : step badKB1 = (badKB1, true) := by decide

theorem run_badKB1 : ∀ n, run n badKB1 = none := by
  intro n
  induction n with
  | zero => rfl
  | succ k ih =>
    have hrun : run (k + 1) badKB1 =
        if (step badKB1).2 then run k (step badKB1).1 else some (step badKB1).1 := rfl
    rw [hrun, step_badKB1]
    simpa using ih

/-- Claim C1 as stated is false: the update_knowledge loop does not
terminate on every knowledge-base state over a finite board.  On the
2 x 2 state badKB, holding the two constraints
{(0,0),(0,1),(1,0)} = 2 and {(0,0),(0,1),(1,0)} = 1, subset subtraction
derives the empty sentence with count 1; every later pass prunes it and
derives it again, so the changed flag never clears and no amount of fuel
makes the loop exit. -/
theorem C1_counterexample : ¬ UpdateTerminates badKB := by
  rintro ⟨n, st', hst'⟩
  cases n with
  | zero => exact Option.noConfusion hst'
  | succ k =>
    have hstep : step badKB = (badKB1, true) := by decide
    have h2 : run (k + 1) badKB =
        if (step badKB).2 then run k (step badKB).1 else some (step badKB).1 := rfl
    rw [h2, hstep] at hst'
    simp only [if_pos] at hst'
    rw [run_badKB1 k] at hst'
    exact Option.noConfusion hst'

theorem ingest_moves (st : AI) (cell : Cell) (count : ℤ) :
    (st.ingest cell count).moves_made = insert cell st.moves_made := by
  simp only [AI.ingest, AI.mark_safe]
  split <;> rfl

theorem ingest_mines (st : AI) (cell : Cell) (count : ℤ) :
    (st.ingest cell count).mines = st.mines := by
  simp only [AI.ingest, AI.mark_safe]
  split <;> rfl

theorem ingest_safes (st : AI) (cell : Cell) (count : ℤ) :
    (st.ingest cell count).safes = insert cell st.safes := by
  simp only [AI.ingest, AI.mark_safe]
  split <;> rfl

theorem ingest_height (st : AI) (cell : Cell) (count : ℤ) :
    (st.ingest cell count).height = st.height := by
  simp only [AI.ingest, AI.mark_safe]
  split <;> rfl

theorem ingest_width (st : AI) (cell : Cell) (count : ℤ) :
    (st.ingest cell count).width = st.width := by
  simp only [AI.ingest, AI.mark_safe]
  split <;> rfl

theorem ingest_knowledge (st : AI) (cell : Cell) (count : ℤ) :
    (st.ingest cell count).knowledge =
      st.knowledge.map (fun s => s.mark_safe cell) ++
        (if ingestNbrsUnknown st cell ≠ ∅ then
          [⟨ingestNbrsUnknown st cell, count - ingestKnownMines st cell⟩]
        else []) := by
  unfold ingestNbrsUnknown ingestKnownMines
  simp only [AI.ingest, AI.mark_safe]
  split
  · rfl
  · exact (List.append_nil _).symm

theorem mark_safe_cells (s : Sentence) (d c : Cell) :
    c ∈ (s.mark_safe d).cells ↔ c ∈ s.cells ∧ c ≠ d := by
  unfold Sentence.mark_safe
  split
  · rename_i h
    show c ∈ s.cells.erase d ↔ _
    rw [Finset.mem_erase]
    tauto
  · rename_i h
    constructor
    · intro hc
      exact ⟨hc, fun he => h (he ▸ hc)⟩
    · intro hc
      exact hc.1

theorem mark_safe_count (s : Sentence) (d : Cell) :
    (s.mark_safe d).count = s.count := by
  unfold Sentence.mark_safe
  split <;> rfl

theorem mark_safe_ok (m : Finset Cell) (s : Sentence) (d : Cell)
    (h : SentenceOK m s) (hd : d ∉ m) : SentenceOK m (s.mark_safe d) := by
  have hcells : (s.mark_safe d).cells ∩ m = s.cells ∩ m := by
    ext c
    simp only [Finset.mem_inter, mark_safe_cells]
    constructor
    · rintro ⟨⟨hc, -⟩, hm⟩
      exact ⟨hc, hm⟩
    · rintro ⟨hc, hm⟩
      exact ⟨⟨hc, fun he => hd (he ▸ hm)⟩, hm⟩
  unfold SentenceOK at h ⊢
  rw [mark_safe_count, hcells]
  exact h

/-- Ingesting a truthful clue (cell not a mine, count equal to the true
number of mines among the in-bounds neighbors) preserves consistency. -/
theorem consistent_ingest (m : Finset Cell) (st : AI) (cell : Cell) (count : ℤ)
    (hC : Consistent m st) (hcell : cell ∉ m)
    (hcount : count = (((nbrs st.height st.width cell) ∩ m).card : ℤ)) :
    Consistent m (st.ingest cell count) := by
  refine ⟨?_, ?_, ?_⟩
  · rw [ingest_mines]
    exact hC.1
  · rw [ingest_safes]
    intro c hc
    rcases Finset.mem_insert.mp hc with rfl | h
    · exact hcell
    · exact hC.2.1 c h
  · rw [ingest_knowledge]
    intro s hs
    rcases List.mem_append.mp hs with h | h
    · rcases List.mem_map.mp h with ⟨t, ht, rfl⟩
      exact mark_safe_ok m t cell (hC.2.2 t ht) hcell
    · by_cases hne : ingestNbrsUnknown st cell ≠ ∅
      · rw [if_pos hne] at h
        rcases List.mem_singleton.mp h with rfl
        unfold SentenceOK
        simp only
        rw [hcount]
        unfold ingestKnownMines
        rw [Finset.filter_mem_eq_inter]
        have hkey : ingestNbrsUnknown st cell ∩ m =
            ((nbrs st.height st.width cell) ∩ m) \
              ((nbrs st.height st.width cell) ∩ st.mines) := by
          ext c
          unfold ingestNbrsUnknown
          simp only [Finset.mem_inter, Finset.mem_sdiff, Finset.mem_filter,
            Finset.mem_insert]
          constructor
          · rintro ⟨⟨hnb, hnm, hnins⟩, hm⟩
            exact ⟨⟨hnb, hm⟩, fun hmem => hnm hmem.2⟩
          · rintro ⟨⟨hnb, hm⟩, hnot⟩
            refine ⟨⟨hnb, fun hmem => hnot ⟨hnb, hmem⟩, ?_⟩, hm⟩
            rintro (rfl | hsafe)
            · exact hcell hm
            · exact hC.2.1 c hsafe hm
        have hsub : (nbrs st.height st.width cell) ∩ st.mines ⊆
            (nbrs st.height st.width cell) ∩ m := by
          intro c hc
          rcases Finset.mem_inter.mp hc with ⟨h1, h2⟩
          exact Finset.mem_inter.mpr ⟨h1, hC.1 h2⟩
        rw [hkey, Finset.card_sdiff hsub, Nat.cast_sub (Finset.card_le_card hsub)]
      · rw [if_neg hne] at h
        exact absurd h (List.not_mem_nil s)

/-- Ingesting any clue preserves tidiness. -/
theorem tidy_ingest (st : AI) (cell : Cell) (count : ℤ) (hT : Tidy st) :
    Tidy (st.ingest cell count) := by
  intro s hs c hc
  rw [ingest_knowledge] at hs
  rw [ingest_mines, ingest_safes]
  rcases List.mem_append.mp hs with h | h
  · rcases List.mem_map.mp h with ⟨t, ht, rfl⟩
    rw [mark_safe_cells] at hc
    obtain ⟨hct, hne⟩ := hc
    obtain ⟨h1, h2⟩ := hT t ht c hct
    exact ⟨h1, fun hins => (Finset.mem_insert.mp hins).elim hne h2⟩
  · by_cases hne : ingestNbrsUnknown st cell ≠ ∅
    · rw [if_pos hne] at h
      rcases List.mem_singleton.mp h with rfl
      unfold ingestNbrsUnknown at hc
      rcases Finset.mem_filter.mp hc with ⟨-, h1, h2⟩
      exact ⟨h1, fun hx => h2 hx⟩
    · rw [if_neg hne] at h
      exact absurd h (List.not_mem_nil _)

theorem run_consistent (m : Finset Cell) :
    ∀ (n : Nat) (st st' : AI), run n st = some st' →
      Consistent m st → Consistent m st' := by
  intro n
  induction n with
  | zero => intro st st' h _; exact Option.noConfusion h
  | succ k ih =>
    intro st st' h hC
    have hrun : run (k + 1) st =
        if (step st).2 then run k (step st).1 else some (step st).1 := rfl
    rw [hrun] at h
    cases hb : (step st).2 with
    | true =>
      rw [hb] at h
      simp only [if_true] at h
      exact ih _ _ h (consistent_step m st hC)
    | false =>
      rw [hb] at h
      simp only [Bool.false_eq_true, if_false, Option.some.injEq] at h
      rw [← h]
      exact consistent_step m st hC

theorem run_tidy :
    ∀ (n : Nat) (st st' : AI), run n st = some st' → Tidy st → Tidy st' := by
  intro n
  induction n with
  | zero => intro st st' h _; exact Option.noConfusion h
  | succ k ih =>
    intro st st' h hT
    have hrun : run (k + 1) st =
        if (step st).2 then run k (step st).1 else some (step st).1 := rfl
    rw [hrun] at h
    cases hb : (step st).2 with
    | true =>
      rw [hb] at h
      simp only [if_true] at h
      exact ih _ _ h (tidy_step st hT)
    | false =>
      rw [hb] at h
      simp only [Bool.false_eq_true, if_false, Option.some.injEq] at h
      rw [← h]
      exact tidy_step st hT

/-- Every reachable state is consistent with the mine placement that
produced its clues, and tidy. -/
theorem reach_invariant (m : Finset Cell) (st : AI) (h : ReachM m st) :
    Consistent m st ∧ Tidy st := by
  induction h with
  | start h w =>
    constructor
    · refine ⟨?_, ?_, ?_⟩
      · intro c hc
        exact absurd hc (Finset.not_mem_empty c)
      · intro c hc
        exact absurd hc (Finset.not_mem_empty c)
      · intro s hs
        exact absurd hs (List.not_mem_nil s)
    · intro s hs
      exact absurd hs (List.not_mem_nil s)
  | move st st' cell count fuel hreach hcell hcount hrun ih =>
    obtain ⟨hC, hT⟩ := ih
    have hC1 := consistent_ingest m st cell count hC hcell hcount
    have hT1 := tidy_ingest st cell count hT
    have hrun' : run fuel (st.ingest cell count) = some st' := hrun
    exact ⟨run_consistent m fuel _ _ hrun' hC1, run_tidy fuel _ _ hrun' hT1⟩

/-- Claim C4: in every state reachable by add_knowledge calls whose
counts are consistent with a true mine placement, the sets of proven
mines and proven safes are disjoint; this covers the states before and
after every such call. -/
theorem C4_mines_safes_disjoint (m : Finset Cell) (st : AI) (h : ReachM m st) :
    st.mines ∩ st.safes = ∅ := by
  obtain ⟨⟨hm, hs, -⟩, -⟩ := reach_invariant m st h
  rw [Finset.eq_empty_iff_forall_not_mem]
  intro c hc
  rcases Finset.mem_inter.mp hc with ⟨h1, h2⟩
  exact hs c h2 (hm h1)

/-- Witness for C4_mines_safes_disjoint at the initial state. -/
theorem C4_witness : (AI.init 2 2).mines ∩ (AI.init 2 2).safes = ∅ :=
  C4_mines_safes_disjoint ∅ (AI.init 2 2) (ReachM.start 2 2)

/-- Claim C7: in every reachable consistent state, every stored
constraint satisfies 0 <= count <= |cells|. -/
theorem C7_count_bounds (m : Finset Cell) (st : AI) (h : ReachM m st)
    (s : Sentence) (hs : s ∈ st.knowledge) :
    0 ≤ s.count ∧ s.count ≤ (s.cells.card : ℤ) :=
  SentenceOK_bounds m s ((reach_invariant m st h).1.2.2 s hs)

/-- Witness for C7_count_bounds at the reachable state stA holding the
sentence {(0,0),(0,1),(1,0)} = 1. -/
theorem C7_witness : 0 ≤ exS.count ∧ exS.count ≤ (exS.cells.card : ℤ) :=
  C7_count_bounds {(0,0)} stA
    (ReachM.move (AI.init 2 2) stA (1,1) 1 5 (ReachM.start 2 2)
      (by decide) (by decide) (by decide))
    exS (by decide)

theorem AI_ext (a b : AI) (h1 : a.height = b.height) (h2 : a.width = b.width)
    (h3 : a.moves_made = b.moves_made) (h4 : a.mines = b.mines)
    (h5 : a.safes = b.safes) (h6 : a.knowledge = b.knowledge) : a = b := by
  cases a
  cases b
  simp only at h1 h2 h3 h4 h5 h6
  rw [h1, h2, h3, h4, h5, h6]

theorem filter_self_idem (p : Sentence → Bool) (l : List Sentence) :
    (l.filter p).filter p = l.filter p := by
  induction l with
  | nil => rfl
  | cons a rest ih =>
    by_cases h : p a = true
    · simp only [List.filter_cons, h, if_true, ih]
    · simp only [List.filter_cons, h, if_false]
      · have hb : p a = false := by
          cases hpa : p a
          · rfl
          · exact absurd hpa h
        simp only [List.filter_cons, hb, Bool.false_eq_true, if_false, ih]

/-- Decoding a pass that reports no change: nothing was marked, nothing
was derived, and the state only got its empty sentences pruned. -/
theorem step_false (st st1 : AI) (h : step st = (st1, false)) :
    stepNM st = ∅ ∧ stepNS st = ∅ ∧ stepFresh st = [] ∧
    st1 = { st with knowledge := st.knowledge.filter (fun s => s.cells ≠ ∅) } := by
  have h2 : (step st).2 = false := by rw [h]
  have h3 : ¬ (stepNM st ≠ ∅ ∨ stepNS st ≠ ∅ ∨ stepFresh st ≠ []) := by
    intro hcon
    have hc := (step_changed_iff st).mpr hcon
    rw [h2] at hc
    exact Bool.noConfusion hc
  push_neg at h3
  obtain ⟨e1, e2, e3⟩ := h3
  refine ⟨e1, e2, e3, ?_⟩
  have h4 : (step st).1 = st1 := by rw [h]
  rw [← h4]
  refine AI_ext _ _ (step_height st) (step_width st) (step_moves st) ?_ ?_ ?_
  · rw [step_mines, e1, Finset.union_empty]
  · rw [step_safes, e2, Finset.union_empty]
  · rw [step_knowledge, e3, List.append_nil, stepPruned_of_no_marks st e1 e2]

theorem newMinesOf_of_filter (p : Sentence → Bool) (kl : List Sentence) :
    newMinesOf (kl.filter p) ⊆ newMinesOf kl := by
  intro c hc
  rcases (mem_newMinesOf _ c).mp hc with ⟨s, hs, hcs⟩
  exact (mem_newMinesOf _ c).mpr ⟨s, (List.mem_filter.mp hs).1, hcs⟩

theorem newSafesOf_of_filter (p : Sentence → Bool) (kl : List Sentence) :
    newSafesOf (kl.filter p) ⊆ newSafesOf kl := by
  intro c hc
  rcases (mem_newSafesOf _ c).mp hc with ⟨s, hs, hcs⟩
  exact (mem_newSafesOf _ c).mpr ⟨s, (List.mem_filter.mp hs).1, hcs⟩

/-- A state returned by a no-change pass is a true fixpoint: running one
more pass returns it unchanged, again with no change reported. -/
theorem step_fix (st st1 : AI) (h : step st = (st1, false)) :
    step st1 = (st1, false) := by
  obtain ⟨e1, e2, e3, hst1⟩ := step_false st st1 h
  have hkl : st1.knowledge = st.knowledge.filter (fun s => s.cells ≠ ∅) := by
    rw [hst1]
  have hmines : st1.mines = st.mines := by rw [hst1]
  have hsafes : st1.safes = st.safes := by rw [hst1]
  have hNM1 : stepNM st1 = ∅ := by
    rw [Finset.eq_empty_iff_forall_not_mem]
    intro c hc
    rcases Finset.mem_sdiff.mp hc with ⟨hmem, hnm⟩
    rw [hkl] at hmem
    have : c ∈ stepNM st := by
      unfold stepNM
      rw [Finset.mem_sdiff]
      rw [hmines] at hnm
      exact ⟨newMinesOf_of_filter _ _ hmem, hnm⟩
    rw [e1] at this
    exact Finset.not_mem_empty c this
  have hNS1 : stepNS st1 = ∅ := by
    rw [Finset.eq_empty_iff_forall_not_mem]
    intro c hc
    rcases Finset.mem_sdiff.mp hc with ⟨hmem, hns⟩
    rw [hkl] at hmem
    have : c ∈ stepNS st := by
      unfold stepNS
      rw [Finset.mem_sdiff]
      rw [hsafes] at hns
      exact ⟨newSafesOf_of_filter _ _ hmem, hns⟩
    rw [e2] at this
    exact Finset.not_mem_empty c this
  have hprun1 : stepPruned st1 = st1.knowledge := by
    rw [stepPruned_of_no_marks st1 hNM1 hNS1, hkl]
    exact filter_self_idem _ _
  have hfresh1 : stepFresh st1 = [] := by
    unfold stepFresh
    rw [hprun1, hkl]
    have : stepFresh st = subtractPass (st.knowledge.filter (fun s => s.cells ≠ ∅)) := by
      unfold stepFresh
      rw [stepPruned_of_no_marks st e1 e2]
    rw [← this]
    exact e3
  rw [step_eq, hNM1, hNS1, hfresh1]
  rw [Finset.union_empty, Finset.union_empty, List.append_nil, hprun1]
  simp

theorem run_moves (n : Nat) (st st' : AI) (h : run n st = some st') :
    st'.moves_made = st.moves_made := by
  induction n generalizing st with
  | zero => exact Option.noConfusion h
  | succ k ih =>
    have hrun : run (k + 1) st =
        if (step st).2 then run k (step st).1 else some (step st).1 := rfl
    rw [hrun] at h
    cases hb : (step st).2 with
    | true =>
      rw [hb] at h
      simp only [if_true] at h
      rw [ih _ h, step_moves]
    | false =>
      rw [hb] at h
      simp only [Bool.false_eq_true, if_false, Option.some.injEq] at h
      rw [← h, step_moves]

theorem run_height_width (n : Nat) (st st' : AI) (h : run n st = some st') :
    st'.height = st.height ∧ st'.width = st.width := by
  induction n generalizing st with
  | zero => exact Option.noConfusion h
  | succ k ih =>
    have hrun : run (k + 1) st =
        if (step st).2 then run k (step st).1 else some (step st).1 := rfl
    rw [hrun] at h
    cases hb : (step st).2 with
    | true =>
      rw [hb] at h
      simp only [if_true] at h
      obtain ⟨ih1, ih2⟩ := ih _ h
      rw [ih1, ih2, step_height, step_width]
      exact ⟨rfl, rfl⟩
    | false =>
      rw [hb] at h
      simp only [Bool.false_eq_true, if_false, Option.some.injEq] at h
      rw [← h, step_height, step_width]
      exact ⟨rfl, rfl⟩

theorem run_mines_subset (n : Nat) (st st' : AI) (h : run n st = some st') :
    st.mines ⊆ st'.mines := by
  induction n generalizing st with
  | zero => exact Option.noConfusion h
  | succ k ih =>
    have hrun : run (k + 1) st =
        if (step st).2 then run k (step st).1 else some (step st).1 := rfl
    rw [hrun] at h
    cases hb : (step st).2 with
    | true =>
      rw [hb] at h
      simp only [if_true] at h
      intro c hc
      exact ih _ h (by rw [step_mines]; exact Finset.mem_union_left _ hc)
    | false =>
      rw [hb] at h
      simp only [Bool.false_eq_true, if_false, Option.some.injEq] at h
      intro c hc
      rw [← h, step_mines]
      exact Finset.mem_union_left _ hc

theorem run_safes_subset (n : Nat) (st st' : AI) (h : run n st = some st') :
    st.safes ⊆ st'.safes := by
  induction n generalizing st with
  | zero => exact Option.noConfusion h
  | succ k ih =>
    have hrun : run (k + 1) st =
        if (step st).2 then run k (step st).1 else some (step st).1 := rfl
    rw [hrun] at h
    cases hb : (step st).2 with
    | true =>
      rw [hb] at h
      simp only [if_true] at h
      intro c hc
      exact ih _ h (by rw [step_safes]; exact Finset.mem_union_left _ hc)
    | false =>
      rw [hb] at h
      simp only [Bool.false_eq_true, if_false, Option.some.injEq] at h
      intro c hc
      rw [← h, step_safes]
      exact Finset.mem_union_left _ hc

/-- The state a terminating run returns is a fixpoint of the pass. -/
theorem run_fix (n : Nat) (st st' : AI) (h : run n st = some st') :
    step st' = (st', false) := by
  induction n generalizing st with
  | zero => exact Option.noConfusion h
  | succ k ih =>
    have hrun : run (k + 1) st =
        if (step st).2 then run k (step st).1 else some (step st).1 := rfl
    rw [hrun] at h
    cases hb : (step st).2 with
    | true =>
      rw [hb] at h
      simp only [if_true] at h
      exact ih _ h
    | false =>
      rw [hb] at h
      simp only [Bool.false_eq_true, if_false, Option.some.injEq] at h
      have hstep : step st = (st', false) := by
        have := Prod.mk.eta (p := step st)
        rw [← this, hb, h]
      exact step_fix st st' hstep

theorem subInner_ne_nil_acc (kl : List Sentence) (s1 : Sentence) :
    ∀ (l acc : List Sentence), acc ≠ [] → subInner kl s1 l acc ≠ [] := by
  intro l acc hacc hcon
  obtain ⟨x, hx⟩ := List.exists_mem_of_ne_nil acc hacc
  have := subInner_acc_subset kl s1 l acc x hx
  rw [hcon] at this
  exact List.not_mem_nil x this

theorem subInner_ne_nil_hit (kl : List Sentence) (s1 : Sentence) :
    ∀ (l acc : List Sentence) (s2 : Sentence), s2 ∈ l → subGuard s1 s2 →
      0 ≤ (subCand s1 s2).count → subCand s1 s2 ∉ kl →
      subInner kl s1 l acc ≠ [] := by
  intro l
  induction l with
  | nil =>
    intro acc s2 h
    exact absurd h (List.not_mem_nil s2)
  | cons a rest ih =>
    intro acc s2 hmem hg hpos hnotkl
    rcases List.mem_cons.mp hmem with rfl | hmem'
    · show subInner kl s1 rest _ ≠ []
      by_cases hin : subCand s1 s2 ∈ acc
      · apply subInner_ne_nil_acc
        by_cases hg2 : subGuard s1 s2
        · rw [if_pos hg2]
          by_cases hc2 : 0 ≤ (subCand s1 s2).count ∧ subCand s1 s2 ∉ kl ∧
              subCand s1 s2 ∉ acc
          · rw [if_pos hc2]
            intro hcon
            simp at hcon
          · rw [if_neg hc2]
            exact List.ne_nil_of_mem hin
        · rw [if_neg hg2]
          exact List.ne_nil_of_mem hin
      · apply subInner_ne_nil_acc
        rw [if_pos hg, if_pos ⟨hpos, hnotkl, hin⟩]
        intro hcon
        simp at hcon
    · exact ih _ s2 hmem' hg hpos hnotkl

theorem subOuter_ne_nil_acc (kl : List Sentence) :
    ∀ (l acc : List Sentence), acc ≠ [] → subOuter kl l acc ≠ [] := by
  intro l
  induction l with
  | nil => intro acc h; exact h
  | cons a rest ih =>
    intro acc h
    exact ih _ (subInner_ne_nil_acc kl a kl acc h)

theorem subOuter_ne_nil_hit (kl : List Sentence) :
    ∀ (l acc : List Sentence) (s1 s2 : Sentence), s1 ∈ l → s2 ∈ kl →
      subGuard s1 s2 → 0 ≤ (subCand s1 s2).count → subCand s1 s2 ∉ kl →
      subOuter kl l acc ≠ [] := by
  intro l
  induction l with
  | nil =>
    intro acc s1 s2 h
    exact absurd h (List.not_mem_nil s1)
  | cons a rest ih =>
    intro acc s1 s2 hmem1 hmem2 hg hpos hnotkl
    rcases List.mem_cons.mp hmem1 with rfl | hmem'
    · exact subOuter_ne_nil_acc kl rest _
        (subInner_ne_nil_hit kl s1 kl acc s2 hmem2 hg hpos hnotkl)
    · exact ih _ s1 s2 hmem' hmem2 hg hpos hnotkl

/-- If a subtraction pass produced nothing, every guarded nonnegative
candidate was already present in the knowledge list. -/
theorem subtractPass_nil_sound (kl : List Sentence) (h : subtractPass kl = [])
    (s1 s2 : Sentence) (h1 : s1 ∈ kl) (h2 : s2 ∈ kl) (hg : subGuard s1 s2)
    (hpos : 0 ≤ (subCand s1 s2).count) : subCand s1 s2 ∈ kl := by
  by_contra hnot
  exact subOuter_ne_nil_hit kl kl [] s1 s2 h1 h2 hg hpos hnot h

theorem subInner_nil_of (kl : List Sentence) (s1 : Sentence) :
    ∀ (l : List Sentence),
      (∀ s2 ∈ l, subGuard s1 s2 → 0 ≤ (subCand s1 s2).count → subCand s1 s2 ∈ kl) →
      subInner kl s1 l [] = [] := by
  intro l
  induction l with
  | nil => intro _; rfl
  | cons a rest ih =>
    intro hyp
    show subInner kl s1 rest _ = []
    have hifeq : (if subGuard s1 a then
        (if 0 ≤ (subCand s1 a).count ∧ subCand s1 a ∉ kl ∧ subCand s1 a ∉ ([] : List Sentence)
         then ([] : List Sentence) ++ [subCand s1 a] else []) else []) = [] := by
      by_cases hg : subGuard s1 a
      · rw [if_pos hg]
        rw [if_neg ?_]
        rintro ⟨hpos, hnotkl, -⟩
        exact hnotkl (hyp a (List.mem_cons_self a rest) hg hpos)
      · rw [if_neg hg]
    rw [hifeq]
    exact ih (fun s2 hs2 => hyp s2 (List.mem_cons_of_mem a hs2))

theorem subOuter_nil_of (kl : List Sentence) :
    ∀ (l : List Sentence), (∀ s1 ∈ l, subInner kl s1 kl [] = []) →
      subOuter kl l [] = [] := by
  intro l
  induction l with
  | nil => intro _; rfl
  | cons a rest ih =>
    intro hyp
    show subOuter kl rest (subInner kl a kl []) = []
    rw [hyp a (List.mem_cons_self a rest)]
    exact ih (fun s1 hs1 => hyp s1 (List.mem_cons_of_mem a hs1))

/-- If every guarded nonnegative candidate over kl is already in kl, the
subtraction pass produces nothing. -/
theorem subtractPass_nil_complete (kl : List Sentence)
    (hyp : ∀ s1 ∈ kl, ∀ s2 ∈ kl, subGuard s1 s2 →
      0 ≤ (subCand s1 s2).count → subCand s1 s2 ∈ kl) :
    subtractPass kl = [] := by
  unfold subtractPass
  exact subOuter_nil_of kl kl
    (fun s1 hs1 => subInner_nil_of kl s1 kl (fun s2 hs2 => hyp s1 hs1 s2 hs2))

/-- One-pass tracking: a sentence of a tidy consistent state either
becomes empty or survives the pass in evolved form (marked cells
removed, count reduced by the newly marked mines among its cells). -/
theorem step_track (m : Finset Cell) (st : AI) (_hC : Consistent m st) (hT : Tidy st)
    (s : Sentence) (hs : s ∈ st.knowledge) :
    s.cells \ ((step st).1.mines ∪ (step st).1.safes) = ∅ ∨
    (⟨s.cells \ ((step st).1.mines ∪ (step st).1.safes),
      s.count - ((s.cells ∩ (step st).1.mines).card : ℤ)⟩ : Sentence)
      ∈ (step st).1.knowledge := by
  have hTid := hT s hs
  have hcells : s.cells \ ((step st).1.mines ∪ (step st).1.safes) =
      (s.cells \ stepNM st) \ stepNS st := by
    rw [step_mines, step_safes]
    ext c
    simp only [Finset.mem_sdiff, Finset.mem_union]
    by_cases hc : c ∈ s.cells
    · have := hTid c hc
      tauto
    · tauto
  have hcount : s.cells ∩ (step st).1.mines = s.cells ∩ stepNM st := by
    rw [step_mines]
    ext c
    simp only [Finset.mem_inter, Finset.mem_union]
    by_cases hc : c ∈ s.cells
    · have := hTid c hc
      tauto
    · tauto
  by_cases hdead : s.cells \ ((step st).1.mines ∪ (step st).1.safes) = ∅
  · exact Or.inl hdead
  · right
    rw [step_knowledge]
    apply List.mem_append_left
    have hE : (⟨s.cells \ ((step st).1.mines ∪ (step st).1.safes),
        s.count - ((s.cells ∩ (step st).1.mines).card : ℤ)⟩ : Sentence) =
        markAll (stepNM st) (stepNS st) s := by
      unfold markAll
      rw [hcells, hcount]
    rw [hE]
    unfold stepPruned
    refine List.mem_filter.mpr ⟨List.mem_map_of_mem _ hs, ?_⟩
    have hc2 : (markAll (stepNM st) (stepNS st) s).cells =
        s.cells \ ((step st).1.mines ∪ (step st).1.safes) := by
      unfold markAll
      simp only
      exact hcells.symm
    rw [hc2]
    exact decide_eq_true hdead

/-- Multi-pass tracking: a sentence of a tidy consistent state either
ends up with all cells marked or is present, in evolved form, in the
state the loop returns. -/
theorem run_track (m : Finset Cell) :
    ∀ (n : Nat) (st st' : AI), Consistent m st → Tidy st → run n st = some st' →
      ∀ s ∈ st.knowledge,
        s.cells \ (st'.mines ∪ st'.safes) = ∅ ∨
        (⟨s.cells \ (st'.mines ∪ st'.safes),
          s.count - ((s.cells ∩ st'.mines).card : ℤ)⟩ : Sentence) ∈ st'.knowledge := by
  intro n
  induction n with
  | zero =>
    intro st st' _ _ h s hs
    exact Option.noConfusion h
  | succ k ih =>
    intro st st' hC hT hrun s hs
    have hrun' : run (k + 1) st =
        if (step st).2 then run k (step st).1 else some (step st).1 := rfl
    rw [hrun'] at hrun
    cases hb : (step st).2 with
    | false =>
      rw [hb] at hrun
      simp only [Bool.false_eq_true, if_false, Option.some.injEq] at hrun
      rw [← hrun]
      exact step_track m st hC hT s hs
    | true =>
      rw [hb] at hrun
      simp only [if_true] at hrun
      have hC1 := consistent_step m st hC
      have hT1 := tidy_step st hT
      have hm1 := run_mines_subset k _ _ hrun
      have hs1 := run_safes_subset k _ _ hrun
      have hCf := run_consistent m k _ _ hrun hC1
      rcases step_track m st hC hT s hs with hdead | hmem
      · left
        rw [Finset.sdiff_eq_empty_iff_subset] at hdead ⊢
        intro c hc
        rcases Finset.mem_union.mp (hdead hc) with h | h
        · exact Finset.mem_union_left _ (hm1 h)
        · exact Finset.mem_union_right _ (hs1 h)
      · rcases ih (step st).1 st' hC1 hT1 hrun _ hmem with hdead2 | hmem2
        · left
          rw [Finset.sdiff_eq_empty_iff_subset] at hdead2 ⊢
          intro c hc
          by_cases hcm1 : c ∈ (step st).1.mines ∪ (step st).1.safes
          · rcases Finset.mem_union.mp hcm1 with h | h
            · exact Finset.mem_union_left _ (hm1 h)
            · exact Finset.mem_union_right _ (hs1 h)
          · exact hdead2 (Finset.mem_sdiff.mpr ⟨hc, hcm1⟩)
        · right
          have hcells2 : (s.cells \ ((step st).1.mines ∪ (step st).1.safes)) \
              (st'.mines ∪ st'.safes) = s.cells \ (st'.mines ∪ st'.safes) := by
            ext c
            simp only [Finset.mem_sdiff, Finset.mem_union]
            constructor
            · rintro ⟨⟨hc, -⟩, hno⟩
              exact ⟨hc, hno⟩
            · rintro ⟨hc, hno⟩
              refine ⟨⟨hc, ?_⟩, hno⟩
              rintro (h | h)
              · exact hno (Or.inl (hm1 h))
              · exact hno (Or.inr (hs1 h))
          have hcount2 : s.count - ((s.cells ∩ (step st).1.mines).card : ℤ) -
              (((s.cells \ ((step st).1.mines ∪ (step st).1.safes)) ∩ st'.mines).card : ℤ) =
              s.count - ((s.cells ∩ st'.mines).card : ℤ) := by
            have hsplit : (s.cells \ ((step st).1.mines ∪ (step st).1.safes)) ∩ st'.mines =
                (s.cells ∩ st'.mines) \ (s.cells ∩ (step st).1.mines) := by
              ext c
              simp only [Finset.mem_sdiff, Finset.mem_inter, Finset.mem_union]
              constructor
              · rintro ⟨⟨hc, hno⟩, hm⟩
                exact ⟨⟨hc, hm⟩, fun h => hno (Or.inl h.2)⟩
              · rintro ⟨⟨hc, hm⟩, hno⟩
                refine ⟨⟨hc, ?_⟩, hm⟩
                rintro (h | h)
                · exact hno ⟨hc, h⟩
                · exact hCf.2.1 c (hs1 h) (hCf.1 hm)
            have hsub : s.cells ∩ (step st).1.mines ⊆ s.cells ∩ st'.mines := by
              intro c hc
              rcases Finset.mem_inter.mp hc with ⟨h1, h2⟩
              exact Finset.mem_inter.mpr ⟨h1, hm1 h2⟩
            rw [hsplit, Finset.card_sdiff hsub, Nat.cast_sub (Finset.card_le_card hsub)]
            ring
          dsimp only at hmem2
          rw [hcells2, hcount2] at hmem2
          exact hmem2

theorem map_eq_self_of (l : List Sentence) (f : Sentence → Sentence)
    (h : ∀ s ∈ l, f s = s) : l.map f = l := by
  induction l with
  | nil => rfl
  | cons a rest ih =>
    simp only [List.map_cons]
    rw [h a (List.mem_cons_self a rest), ih (fun s hs => h s (List.mem_cons_of_mem a hs))]

theorem newMinesOf_append_mem (kl : List Sentence) (v : Sentence) (hv : v ∈ kl) :
    newMinesOf (kl ++ [v]) = newMinesOf kl := by
  ext c
  rw [mem_newMinesOf, mem_newMinesOf]
  constructor
  · rintro ⟨s, hs, hc⟩
    rcases List.mem_append.mp hs with h | h
    · exact ⟨s, h, hc⟩
    · rcases List.mem_singleton.mp h with rfl
      exact ⟨s, hv, hc⟩
  · rintro ⟨s, hs, hc⟩
    exact ⟨s, List.mem_append_left _ hs, hc⟩

theorem newSafesOf_append_mem (kl : List Sentence) (v : Sentence) (hv : v ∈ kl) :
    newSafesOf (kl ++ [v]) = newSafesOf kl := by
  ext c
  rw [mem_newSafesOf, mem_newSafesOf]
  constructor
  · rintro ⟨s, hs, hc⟩
    rcases List.mem_append.mp hs with h | h
    · exact ⟨s, h, hc⟩
    · rcases List.mem_singleton.mp h with rfl
      exact ⟨s, hv, hc⟩
  · rintro ⟨s, hs, hc⟩
    exact ⟨s, List.mem_append_left _ hs, hc⟩

/-- Appending a duplicate of a nonempty sentence already present in a
fixpoint state gives again a fixpoint state: the extraction sets do not
grow, the duplicate survives pruning, and every subtraction candidate it
contributes is equal to one contributed by its original, hence already
deduplicated away. -/
theorem step_fix_dup (st : AI) (v : Sentence) (hfix : step st = (st, false))
    (hv : v ∈ st.knowledge) (hne : v.cells ≠ ∅) :
    step { st with knowledge := st.knowledge ++ [v] } =
      ({ st with knowledge := st.knowledge ++ [v] }, false) := by
  obtain ⟨e1, e2, e3, hself⟩ := step_false st st hfix
  have hklfix : st.knowledge = st.knowledge.filter (fun s => s.cells ≠ ∅) :=
    congrArg AI.knowledge hself
  have hprunfix : stepPruned st = st.knowledge := by
    rw [stepPruned_of_no_marks st e1 e2, ← hklfix]
  have hsubnil : subtractPass st.knowledge = [] := by
    have h0 : stepFresh st = subtractPass st.knowledge := by
      unfold stepFresh
      rw [hprunfix]
    rw [← h0, e3]
  have hNM2 : stepNM { st with knowledge := st.knowledge ++ [v] } = ∅ := by
    unfold stepNM at e1 ⊢
    simp only
    rw [newMinesOf_append_mem _ v hv]
    exact e1
  have hNS2 : stepNS { st with knowledge := st.knowledge ++ [v] } = ∅ := by
    unfold stepNS at e2 ⊢
    simp only
    rw [newSafesOf_append_mem _ v hv]
    exact e2
  have hprun2 : stepPruned { st with knowledge := st.knowledge ++ [v] } =
      st.knowledge ++ [v] := by
    rw [stepPruned_of_no_marks _ hNM2 hNS2]
    show (st.knowledge ++ [v]).filter (fun s => s.cells ≠ ∅) = st.knowledge ++ [v]
    rw [List.filter_append, ← hklfix]
    congr 1
    simp only [List.filter_cons, List.filter_nil]
    rw [if_pos (decide_eq_true hne)]
  have hfresh2 : stepFresh { st with knowledge := st.knowledge ++ [v] } = [] := by
    unfold stepFresh
    rw [hprun2]
    apply subtractPass_nil_complete
    intro s1 hs1 s2 hs2 hg hpos
    have hm1 : s1 ∈ st.knowledge := by
      rcases List.mem_append.mp hs1 with h | h
      · exact h
      · rcases List.mem_singleton.mp h with rfl
        exact hv
    have hm2 : s2 ∈ st.knowledge := by
      rcases List.mem_append.mp hs2 with h | h
      · exact h
      · rcases List.mem_singleton.mp h with rfl
        exact hv
    exact List.mem_append_left _
      (subtractPass_nil_sound st.knowledge hsubnil s1 s2 hm1 hm2 hg hpos)
  have hfst : (step { st with knowledge := st.knowledge ++ [v] }).1 =
      { st with knowledge := st.knowledge ++ [v] } := by
    refine AI_ext _ _ (step_height _) (step_width _) (step_moves _) ?_ ?_ ?_
    · rw [step_mines, hNM2, Finset.union_empty]
    · rw [step_safes, hNS2, Finset.union_empty]
    · rw [step_knowledge, hfresh2, List.append_nil, hprun2]
  have hsnd : (step { st with knowledge := st.knowledge ++ [v] }).2 = false := by
    rw [step_eq]
    simp [hNM2, hNS2, hfresh2]
  have heta : step { st with knowledge := st.knowledge ++ [v] } =
      ((step { st with knowledge := st.knowledge ++ [v] }).1,
       (step { st with knowledge := st.knowledge ++ [v] }).2) := rfl
  rw [heta, hfst, hsnd]

/-- Claim C6, amended: starting from any state reachable by truthful
add_knowledge calls, feeding the same truthful clue (cell, count) twice
yields the same moves_made, mines, and safes, and the same set of
distinct constraints, as feeding it once; the knowledge list itself may
differ by one duplicated entry (the second call re-appends, without any
equality check, the evolved form of the sentence the first call
created), so the literal state need not be identical. -/
theorem C6_idempotent_up_to_dup (m : Finset Cell) (st st1 st2 : AI) (cell : Cell)
    (count : ℤ) (f1 f2 : Nat) (hreach : ReachM m st) (hcell : cell ∉ m)
    (hcount : count = (((nbrs st.height st.width cell) ∩ m).card : ℤ))
    (h1 : st.add_knowledge cell count f1 = some st1)
    (h2 : st1.add_knowledge cell count f2 = some st2) :
    st2.moves_made = st1.moves_made ∧ st2.mines = st1.mines ∧
    st2.safes = st1.safes ∧ st2.knowledge.toFinset = st1.knowledge.toFinset := by
  obtain ⟨hC, hT⟩ := reach_invariant m st hreach
  have hC_I : Consistent m (st.ingest cell count) :=
    consistent_ingest m st cell count hC hcell hcount
  have hT_I : Tidy (st.ingest cell count) := tidy_ingest st cell count hT
  have h1' : run f1 (st.ingest cell count) = some st1 := h1
  have h2' : run f2 (st1.ingest cell count) = some st2 := h2
  have hC1 : Consistent m st1 := run_consistent m f1 _ _ h1' hC_I
  have hT1 : Tidy st1 := run_tidy f1 _ _ h1' hT_I
  have hfix : step st1 = (st1, false) := run_fix f1 _ _ h1'
  have hHW := run_height_width f1 _ _ h1'
  have hH1 : st1.height = st.height := by rw [hHW.1, ingest_height]
  have hW1 : st1.width = st.width := by rw [hHW.2, ingest_width]
  have hmoves1 : st1.moves_made = insert cell st.moves_made := by
    rw [run_moves f1 _ _ h1', ingest_moves]
  have hcellsafes : cell ∈ st1.safes := by
    apply run_safes_subset f1 _ _ h1'
    rw [ingest_safes]
    exact Finset.mem_insert_self cell _
  have hminesI : st.mines ⊆ st1.mines := by
    have hsub := run_mines_subset f1 _ _ h1'
    rw [ingest_mines] at hsub
    exact hsub
  have hsafesI : insert cell st.safes ⊆ st1.safes := by
    have hsub := run_safes_subset f1 _ _ h1'
    rw [ingest_safes] at hsub
    exact hsub
  have hnb : nbrs st1.height st1.width cell = nbrs st.height st.width cell := by
    rw [hH1, hW1]
  have hmapid : st1.knowledge.map (fun s => s.mark_safe cell) = st1.knowledge := by
    apply map_eq_self_of
    intro s hs
    unfold Sentence.mark_safe
    rw [if_neg]
    intro hcin
    exact (hT1 s hs cell hcin).2 hcellsafes
  have hmoves2 : (st1.ingest cell count).moves_made = st1.moves_made := by
    rw [ingest_moves]
    refine Finset.insert_eq_self.mpr ?_
    rw [hmoves1]
    exact Finset.mem_insert_self _ _
  have hsafes2 : (st1.ingest cell count).safes = st1.safes := by
    rw [ingest_safes]
    exact Finset.insert_eq_self.mpr hcellsafes
  by_cases hn2 : ingestNbrsUnknown st1 cell = ∅
  · have hId : st1.ingest cell count = st1 := by
      refine AI_ext _ _ (ingest_height _ _ _) (ingest_width _ _ _) hmoves2
        (ingest_mines _ _ _) hsafes2 ?_
      rw [ingest_knowledge, if_neg (fun hcon => hcon hn2), List.append_nil, hmapid]
    rw [hId] at h2'
    cases f2 with
    | zero => exact Option.noConfusion h2'
    | succ k =>
      have hrun2 : run (k + 1) st1 =
          if (step st1).2 then run k (step st1).1 else some (step st1).1 := rfl
      rw [hrun2, hfix] at h2'
      simp only [Bool.false_eq_true, if_false, Option.some.injEq] at h2'
      rw [← h2']
      exact ⟨rfl, rfl, rfl, rfl⟩
  · have hI2 : st1.ingest cell count = { st1 with knowledge := st1.knowledge ++
        [⟨ingestNbrsUnknown st1 cell, count - ingestKnownMines st1 cell⟩] } := by
      refine AI_ext _ _ (ingest_height _ _ _) (ingest_width _ _ _) hmoves2
        (ingest_mines _ _ _) hsafes2 ?_
      rw [ingest_knowledge, if_pos hn2, hmapid]
    have hn1ne : ingestNbrsUnknown st cell ≠ ∅ := by
      intro hempty
      apply hn2
      rw [Finset.eq_empty_iff_forall_not_mem] at hempty ⊢
      intro c hc
      apply hempty c
      unfold ingestNbrsUnknown at hc ⊢
      rw [hnb] at hc
      rcases Finset.mem_filter.mp hc with ⟨hcnb, hcm, hcs⟩
      refine Finset.mem_filter.mpr ⟨hcnb, ?_, ?_⟩
      · exact fun h => hcm (hminesI h)
      · intro h
        rcases Finset.mem_insert.mp h with rfl | h'
        · exact hcs (Finset.mem_insert_self _ _)
        · exact hcs (Finset.mem_insert_of_mem (hsafesI (Finset.mem_insert_of_mem h')))
    have hS1mem : (⟨ingestNbrsUnknown st cell, count - ingestKnownMines st cell⟩ :
        Sentence) ∈ (st.ingest cell count).knowledge := by
      rw [ingest_knowledge, if_pos hn1ne]
      exact List.mem_append_right _ (List.mem_singleton.mpr rfl)
    have hsetid : (⟨ingestNbrsUnknown st cell, count - ingestKnownMines st cell⟩ :
        Sentence).cells \ (st1.mines ∪ st1.safes) = ingestNbrsUnknown st1 cell := by
      dsimp only
      unfold ingestNbrsUnknown
      rw [hnb]
      ext c
      constructor
      · intro hcmem
        rcases Finset.mem_sdiff.mp hcmem with ⟨hcfil, hno⟩
        rcases Finset.mem_filter.mp hcfil with ⟨hcnb, hcm, hcs⟩
        refine Finset.mem_filter.mpr ⟨hcnb, ?_, ?_⟩
        · exact fun h => hno (Finset.mem_union_left _ h)
        · intro h
          rcases Finset.mem_insert.mp h with rfl | h'
          · exact hcs (Finset.mem_insert_self _ _)
          · exact hno (Finset.mem_union_right _ h')
      · intro hcmem
        rcases Finset.mem_filter.mp hcmem with ⟨hcnb, hcm1, hcs1⟩
        have hcne : c ≠ cell := by
          intro hrfl
          exact hcs1 (hrfl ▸ Finset.mem_insert_self cell st1.safes)
        refine Finset.mem_sdiff.mpr ⟨Finset.mem_filter.mpr ⟨hcnb, ?_, ?_⟩, ?_⟩
        · exact fun h => hcm1 (hminesI h)
        · intro h
          rcases Finset.mem_insert.mp h with rfl | h'
          · exact hcne rfl
          · exact hcs1 (Finset.mem_insert_of_mem (hsafesI (Finset.mem_insert_of_mem h')))
        · intro h
          rcases Finset.mem_union.mp h with h | h
          · exact hcm1 h
          · exact hcs1 (Finset.mem_insert_of_mem h)
    have hcountid : (⟨ingestNbrsUnknown st cell, count - ingestKnownMines st cell⟩ :
        Sentence).count -
        (((⟨ingestNbrsUnknown st cell, count - ingestKnownMines st cell⟩ :
          Sentence).cells ∩ st1.mines).card : ℤ) =
        count - ingestKnownMines st1 cell := by
      dsimp only
      unfold ingestKnownMines
      rw [hnb, Finset.filter_mem_eq_inter, Finset.filter_mem_eq_inter]
      have hsplit : ingestNbrsUnknown st cell ∩ st1.mines =
          ((nbrs st.height st.width cell) ∩ st1.mines) \
            ((nbrs st.height st.width cell) ∩ st.mines) := by
        ext c
        constructor
        · intro hc
          rcases Finset.mem_inter.mp hc with ⟨hcu, hcm⟩
          rcases Finset.mem_filter.mp hcu with ⟨hcnb, hcm0, hcs0⟩
          refine Finset.mem_sdiff.mpr ⟨Finset.mem_inter.mpr ⟨hcnb, hcm⟩, ?_⟩
          intro h
          exact hcm0 (Finset.mem_inter.mp h).2
        · intro hc
          rcases Finset.mem_sdiff.mp hc with ⟨hcin, hnot⟩
          rcases Finset.mem_inter.mp hcin with ⟨hcnb, hcm⟩
          have hcmM : c ∈ m := hC1.1 hcm
          refine Finset.mem_inter.mpr ⟨Finset.mem_filter.mpr ⟨hcnb, ?_, ?_⟩, hcm⟩
          · intro h
            exact hnot (Finset.mem_inter.mpr ⟨hcnb, h⟩)
          · intro h
            rcases Finset.mem_insert.mp h with rfl | h'
            · exact hcell hcmM
            · exact hC.2.1 c h' hcmM
      have hsub : (nbrs st.height st.width cell) ∩ st.mines ⊆
          (nbrs st.height st.width cell) ∩ st1.mines := by
        intro c hc
        rcases Finset.mem_inter.mp hc with ⟨hx1, hx2⟩
        exact Finset.mem_inter.mpr ⟨hx1, hminesI hx2⟩
      rw [hsplit, Finset.card_sdiff hsub, Nat.cast_sub (Finset.card_le_card hsub)]
      ring
    rcases run_track m f1 _ _ hC_I hT_I h1' _ hS1mem with hdead | hmem
    · exfalso
      apply hn2
      rw [← hsetid]
      exact hdead
    · have hSeq : (⟨(⟨ingestNbrsUnknown st cell, count - ingestKnownMines st cell⟩ :
          Sentence).cells \ (st1.mines ∪ st1.safes),
          (⟨ingestNbrsUnknown st cell, count - ingestKnownMines st cell⟩ :
            Sentence).count -
          (((⟨ingestNbrsUnknown st cell, count - ingestKnownMines st cell⟩ :
            Sentence).cells ∩ st1.mines).card : ℤ)⟩ : Sentence) =
          ⟨ingestNbrsUnknown st1 cell, count - ingestKnownMines st1 cell⟩ := by
        rw [hsetid, hcountid]
      rw [hSeq] at hmem
      have hS2ne : (⟨ingestNbrsUnknown st1 cell,
          count - ingestKnownMines st1 cell⟩ : Sentence).cells ≠ ∅ := hn2
      have hdup := step_fix_dup st1 _ hfix hmem hS2ne
      rw [hI2] at h2'
      cases f2 with
      | zero => exact Option.noConfusion h2'
      | succ k =>
        have hrun2 : run (k + 1) { st1 with knowledge := st1.knowledge ++
            [⟨ingestNbrsUnknown st1 cell, count - ingestKnownMines st1 cell⟩] } =
            if (step { st1 with knowledge := st1.knowledge ++
              [⟨ingestNbrsUnknown st1 cell, count - ingestKnownMines st1 cell⟩] }).2
            then run k (step { st1 with knowledge := st1.knowledge ++
              [⟨ingestNbrsUnknown st1 cell, count - ingestKnownMines st1 cell⟩] }).1
            else some (step { st1 with knowledge := st1.knowledge ++
              [⟨ingestNbrsUnknown st1 cell, count - ingestKnownMines st1 cell⟩] }).1 := rfl
        rw [hrun2, hdup] at h2'
        simp only [Bool.false_eq_true, if_false, Option.some.injEq] at h2'
        rw [← h2']
        refine ⟨rfl, rfl, rfl, ?_⟩
        show (st1.knowledge ++ [(⟨ingestNbrsUnknown st1 cell,
          count - ingestKnownMines st1 cell⟩ : Sentence)]).toFinset = st1.knowledge.toFinset
        rw [List.toFinset_append]
        have hsingle : ([⟨ingestNbrsUnknown st1 cell,
            count - ingestKnownMines st1 cell⟩] : List Sentence).toFinset =
            {(⟨ingestNbrsUnknown st1 cell, count - ingestKnownMines st1 cell⟩ : Sentence)} := by
          simp
        rw [hsingle]
        exact Finset.union_eq_left.mpr
          (Finset.singleton_subset_iff.mpr (List.mem_toFinset.mpr hmem))

/-- Witness for C6_idempotent_up_to_dup: the 2 x 2 double-clue example.
The second call leaves moves_made, mines, safes and the set of distinct
constraints unchanged, even though the knowledge list gains a duplicate. -/
theorem C6_witness :
    stB.moves_made = stA.moves_made ∧ stB.mines = stA.mines ∧
    stB.safes = stA.safes ∧ stB.knowledge.toFinset = stA.knowledge.toFinset :=
  C6_idempotent_up_to_dup {(0,0)} (AI.init 2 2) stA stB (1,1) 1 5 5
    (ReachM.start 2 2) (by decide) (by decide) (by decide) (by decide)
